import Mathlib

/-
  Shallow embedding of `eip712_structs/struct.py` (EIP-712 struct model,
  encoding engine and wire bridge).

  Struct definitions are embedded as `StructDef` (name + ordered member list),
  field types as `FieldType` (scalar descriptors from the external catalog,
  struct-class references, and `Array` descriptors).  Python class references
  are embedded as references by `type_name`, resolved in an environment
  `List StructDef`; the well-formedness hypotheses used by the theorems state
  that these lookups succeed and are unambiguous, which is automatic in the
  source where a member holds the class object itself.
-/

namespace EIP712

/-- A field type descriptor: an atomic scalar descriptor from the external
catalog (`eip712_structs.types`), a reference to a struct class used as a
member type, or an `Array` descriptor (`length = 0` meaning dynamic). -/
inductive FieldType where
  | scalar (name : String)
  | structRef (name : String)
  | array (elem : FieldType) (len : Nat)
deriving DecidableEq

/-- The `type_name` attribute: scalars and struct classes carry their name;
an array renders as `elem[n]`, with an empty bracket for dynamic length. -/
def FieldType.typeName : FieldType → String
  | .scalar n => n
  | .structRef n => n
  | .array e len => e.typeName ++ "[" ++ (if len = 0 then "" else toString len) ++ "]"

/-- A struct definition: the class `type_name` together with `get_members()`,
the ordered list of `(name, type)` member declarations. -/
structure StructDef where
  name : String
  members : List (String × FieldType)
deriving DecidableEq

/-- A runtime field value: `None`, an opaque scalar, a list, a plain dict,
or a live nested struct instance (carrying its class and its `values`). -/
inductive Value where
  | vnone
  | atom (s : String)
  | list (elems : List Value)
  | map (fields : List (String × Value))
  | inst (sdef : StructDef) (vals : List (String × Value))

/-- A struct instance: its class (definition) and its `values` dictionary. -/
structure StructInst where
  sdef : StructDef
  vals : List (String × Value)

/-- Lookup of a struct class by name in the environment (embeds dereferencing
a Python class reference / the `structs` dict in `struct_from_dict`). -/
def findDef (env : List StructDef) (n : String) : Option StructDef :=
  env.find? (fun d => d.name == n)

/-- The direct struct-typed members of a definition: line 99 of the source
keeps exactly the members that are struct classes (`isinstance(m[1], type)`),
so `Array` members are excluded even when their element type is a struct. -/
def directRefNames (d : StructDef) : List String :=
  d.members.filterMap (fun m => match m.2 with | .structRef s => some s | _ => none)

/-- Number of environment definition names not yet visited (termination
measure for the reference-gathering walk). -/
def unvisitedCount (env : List StructDef) (vis : List String) : Nat :=
  ((env.map StructDef.name).dedup.filter (fun n => decide (n ∉ vis))).length

/-- Monotonicity: a pointwise stronger filter keeps at most as many elements. -/
theorem length_filter_le_of_imp {α : Type} {l : List α} {p q : α → Bool}
    (hpq : ∀ x, q x = true → p x = true) :
    (l.filter q).length ≤ (l.filter p).length := by
  induction l with
  | nil => simp
  | cons b l ih =>
    simp only [List.filter_cons]
    by_cases hq : q b = true
    · simp only [hq, hpq b hq, if_true, List.length_cons]
      exact Nat.succ_le_succ ih
    · simp only [Bool.not_eq_true] at hq
      simp only [hq, Bool.false_eq_true, if_false]
      cases hp : p b
      · simpa [hp] using ih
      · simp only [if_true, List.length_cons]
        exact Nat.le_succ_of_le ih

theorem length_filter_lt_of_mem {α : Type} {l : List α} {p q : α → Bool}
    (hpq : ∀ x, q x = true → p x = true) {a : α} (ha : a ∈ l)
    (hpa : p a = true) (hqa : q a = false) :
    (l.filter q).length < (l.filter p).length := by
  induction l with
  | nil => cases ha
  | cons b l ih =>
    simp only [List.filter_cons]
    rcases List.mem_cons.mp ha with rfl | hmem
    · simp only [hqa, hpa, Bool.false_eq_true, if_false, if_true, List.length_cons]
      exact Nat.lt_succ_of_le (length_filter_le_of_imp hpq)
    · by_cases hq : q b = true
      · simp only [hq, hpq b hq, if_true, List.length_cons]
        exact Nat.succ_lt_succ (ih hmem)
      · simp only [Bool.not_eq_true] at hq
        simp only [hq, Bool.false_eq_true, if_false]
        cases hp : p b
        · simpa [hp] using ih hmem
        · simp only [if_true, List.length_cons]
          exact Nat.lt_succ_of_lt (ih hmem)

theorem unvisitedCount_cons_lt {env : List StructDef} {vis : List String}
    {n : String} (hn : n ∈ env.map StructDef.name) (hvis : ¬ n ∈ vis) :
    unvisitedCount env (n :: vis) < unvisitedCount env vis := by
  unfold unvisitedCount
  refine length_filter_lt_of_mem ?_ (List.mem_dedup.mpr hn) ?_ ?_
  · intro x hx
    simp only [decide_eq_true_eq, List.mem_cons, not_or] at hx ⊢
    exact hx.2
  · simpa using hvis
  · simp

theorem unvisitedCount_cons_le {env : List StructDef} {vis : List String}
    {n : String} :
    unvisitedCount env (n :: vis) ≤ unvisitedCount env vis := by
  unfold unvisitedCount
  apply length_filter_le_of_imp
  intro x hx
  simp only [decide_eq_true_eq, List.mem_cons, not_or] at hx ⊢
  exact hx.2

theorem unvisitedCount_cons_eq_of_not_mem {env : List StructDef}
    {vis : List String} {n : String} (hn : ¬ n ∈ env.map StructDef.name) :
    unvisitedCount env (n :: vis) = unvisitedCount env vis := by
  unfold unvisitedCount
  congr 1
  apply List.filter_congr
  intro x hx
  have hxn : x ≠ n := by
    intro h
    exact hn (h ▸ List.mem_dedup.mp hx)
  simp [List.mem_cons, hxn]

/-- The reference-gathering walk (`EIP712Struct._gather_reference_structs`),
written as an explicit worklist that visits frontier names one at a time:
a name already in the set is skipped (cycle protection, line 101), otherwise
it is added and its own direct struct members are pushed (lines 102-103).
This visits definitions in the same preorder as the recursive source code.
A name that does not resolve in the environment cannot occur in the source
(members hold the class object itself); it is skipped. -/
def gatherStack (env : List StructDef) : List String → List String → List String
  | [], vis => vis
  | n :: rest, vis =>
    if hvis : n ∈ vis then gatherStack env rest vis
    else match hfind : findDef env n with
      | some d2 => gatherStack env (directRefNames d2 ++ rest) (n :: vis)
      | none => gatherStack env rest (n :: vis)
termination_by pend vis => (unvisitedCount env vis, pend.length)
decreasing_by
  · exact Prod.Lex.right _ (Nat.lt_succ_self _)
  · apply Prod.Lex.left
    apply unvisitedCount_cons_lt
    · have hmem : d2 ∈ env := List.mem_of_find?_eq_some hfind
      have hname : d2.name = n := by
        have := List.find?_some hfind
        simpa using this
      exact List.mem_map.mpr ⟨d2, hmem, hname⟩
    · exact hvis
  · have hn : ¬ n ∈ env.map StructDef.name := by
      intro hmem
      rcases List.mem_map.mp hmem with ⟨d2, hd2, hname⟩
      have : findDef env n ≠ none := by
        intro hnone
        have := List.find?_eq_none.mp hnone d2 hd2
        simp [hname] at this
      exact this hfind
    rw [unvisitedCount_cons_eq_of_not_mem hn]
    exact Prod.Lex.right _ (Nat.lt_succ_self _)

/-- `EIP712Struct._gather_reference_structs` called with an initially empty
set, as `_encode_type` does: the gathered set of struct names. -/
def gather_reference_structs (env : List StructDef) (d : StructDef) : List String :=
  gatherStack env (directRefNames d) []

/-- Transitive reachability along direct struct-typed member edges:
`ReachableRef env start w` holds when `w` is one of the names in `start` or
can be reached from one by following direct struct-member references. -/
inductive ReachableRef (env : List StructDef) (start : List String) : String → Prop
  | base {n : String} : n ∈ start → ReachableRef env start n
  | step {n m : String} {d : StructDef} : ReachableRef env start n →
      findDef env n = some d → m ∈ directRefNames d → ReachableRef env start m

theorem gatherStack_nil (env : List StructDef) (vis : List String) :
    gatherStack env [] vis = vis := by
  rw [gatherStack]

theorem gatherStack_cons_mem {env : List StructDef} {n : String}
    {rest vis : List String} (h : n ∈ vis) :
    gatherStack env (n :: rest) vis = gatherStack env rest vis := by
  rw [gatherStack]
  simp [h]

theorem gatherStack_cons_some {env : List StructDef} {n : String}
    {rest vis : List String} {d2 : StructDef} (h : ¬ n ∈ vis)
    (hfind : findDef env n = some d2) :
    gatherStack env (n :: rest) vis =
      gatherStack env (directRefNames d2 ++ rest) (n :: vis) := by
  rw [gatherStack, dif_neg h]
  split
  · rename_i d2' heq
    rw [hfind] at heq
    cases heq
    rfl
  · rename_i heq
    rw [hfind] at heq
    cases heq

theorem gatherStack_cons_none {env : List StructDef} {n : String}
    {rest vis : List String} (h : ¬ n ∈ vis)
    (hfind : findDef env n = none) :
    gatherStack env (n :: rest) vis = gatherStack env rest (n :: vis) := by
  rw [gatherStack, dif_neg h]
  split
  · rename_i d2' heq
    rw [hfind] at heq
    cases heq
  · rfl

theorem gatherStack_vis_subset (env : List StructDef) (pend vis : List String) :
    vis ⊆ gatherStack env pend vis := by
  induction pend, vis using gatherStack.induct env with
  | case1 vis => rw [gatherStack_nil]; exact fun x hx => hx
  | case2 n rest vis h ih =>
    rw [gatherStack_cons_mem h]; exact ih
  | case3 n rest vis h d2 hfind ih =>
    rw [gatherStack_cons_some h hfind]
    exact fun x hx => ih (List.mem_cons_of_mem n hx)
  | case4 n rest vis h hfind ih =>
    rw [gatherStack_cons_none h hfind]
    exact fun x hx => ih (List.mem_cons_of_mem n hx)

theorem gatherStack_pend_subset (env : List StructDef) (pend vis : List String) :
    ∀ n ∈ pend, n ∈ gatherStack env pend vis := by
  induction pend, vis using gatherStack.induct env with
  | case1 vis => intro n hn; cases hn
  | case2 n rest vis h ih =>
    rw [gatherStack_cons_mem h]
    intro m hm
    rcases List.mem_cons.mp hm with rfl | hm
    · exact gatherStack_vis_subset env rest vis h
    · exact ih m hm
  | case3 n rest vis h d2 hfind ih =>
    rw [gatherStack_cons_some h hfind]
    intro m hm
    rcases List.mem_cons.mp hm with rfl | hm
    · exact gatherStack_vis_subset env _ _ (List.mem_cons_self m vis)
    · exact ih m (List.mem_append_right _ hm)
  | case4 n rest vis h hfind ih =>
    rw [gatherStack_cons_none h hfind]
    intro m hm
    rcases List.mem_cons.mp hm with rfl | hm
    · exact gatherStack_vis_subset env _ _ (List.mem_cons_self m vis)
    · exact ih m hm

/-- Invariant of the walk: every already-visited definition has all its
direct struct references either visited or still pending. -/
def ClosedUnder (env : List StructDef) (vis pend : List String) : Prop :=
  ∀ n ∈ vis, ∀ d, findDef env n = some d →
    ∀ m ∈ directRefNames d, m ∈ vis ∨ m ∈ pend

theorem gatherStack_closed (env : List StructDef) (pend vis : List String)
    (hcl : ClosedUnder env vis pend) :
    ∀ n ∈ gatherStack env pend vis, ∀ d, findDef env n = some d →
      ∀ m ∈ directRefNames d, m ∈ gatherStack env pend vis := by
  induction pend, vis using gatherStack.induct env with
  | case1 vis =>
    rw [gatherStack_nil] at *
    intro n hn d hd m hm
    rcases hcl n hn d hd m hm with h | h
    · exact h
    · cases h
  | case2 n rest vis h ih =>
    rw [gatherStack_cons_mem h]
    apply ih
    intro p hp d hd m hm
    rcases hcl p hp d hd m hm with h1 | h1
    · exact Or.inl h1
    · rcases List.mem_cons.mp h1 with rfl | h1
      · exact Or.inl h
      · exact Or.inr h1
  | case3 n rest vis h d2 hfind ih =>
    rw [gatherStack_cons_some h hfind]
    apply ih
    intro p hp d hd m hm
    rcases List.mem_cons.mp hp with rfl | hp
    · rw [hfind] at hd
      cases hd
      exact Or.inr (List.mem_append_left _ hm)
    · rcases hcl p hp d hd m hm with h1 | h1
      · exact Or.inl (List.mem_cons_of_mem n h1)
      · rcases List.mem_cons.mp h1 with rfl | h1
        · exact Or.inl (List.mem_cons_self m vis)
        · exact Or.inr (List.mem_append_right _ h1)
  | case4 n rest vis h hfind ih =>
    rw [gatherStack_cons_none h hfind]
    apply ih
    intro p hp d hd m hm
    rcases List.mem_cons.mp hp with rfl | hp
    · rw [hfind] at hd
      cases hd
    · rcases hcl p hp d hd m hm with h1 | h1
      · exact Or.inl (List.mem_cons_of_mem n h1)
      · rcases List.mem_cons.mp h1 with rfl | h1
        · exact Or.inl (List.mem_cons_self m vis)
        · exact Or.inr h1

theorem ReachableRef_mono {env : List StructDef} {s s' : List String}
    (hss : ∀ x ∈ s, x ∈ s') {w : String} (h : ReachableRef env s w) :
    ReachableRef env s' w := by
  induction h with
  | base hb => exact .base (hss _ hb)
  | step _ hfind hm ih => exact .step ih hfind hm

theorem ReachableRef_trans {env : List StructDef} {s s' : List String}
    (hss : ∀ x ∈ s', ReachableRef env s x) {w : String}
    (h : ReachableRef env s' w) : ReachableRef env s w := by
  induction h with
  | base hb => exact hss _ hb
  | step _ hfind hm ih => exact .step ih hfind hm

theorem gatherStack_sound (env : List StructDef) (pend vis : List String) :
    ∀ w ∈ gatherStack env pend vis, w ∈ vis ∨ ReachableRef env pend w := by
  induction pend, vis using gatherStack.induct env with
  | case1 vis =>
    rw [gatherStack_nil]
    exact fun w hw => Or.inl hw
  | case2 n rest vis h ih =>
    rw [gatherStack_cons_mem h]
    intro w hw
    rcases ih w hw with h1 | h1
    · exact Or.inl h1
    · exact Or.inr (ReachableRef_mono (fun x hx => List.mem_cons_of_mem n hx) h1)
  | case3 n rest vis h d2 hfind ih =>
    rw [gatherStack_cons_some h hfind]
    intro w hw
    rcases ih w hw with h1 | h1
    · rcases List.mem_cons.mp h1 with rfl | h1
      · exact Or.inr (.base (List.mem_cons_self w rest))
      · exact Or.inl h1
    · refine Or.inr (ReachableRef_trans ?_ h1)
      intro x hx
      rcases List.mem_append.mp hx with hx | hx
      · exact .step (.base (List.mem_cons_self n rest)) hfind hx
      · exact .base (List.mem_cons_of_mem n hx)
  | case4 n rest vis h hfind ih =>
    rw [gatherStack_cons_none h hfind]
    intro w hw
    rcases ih w hw with h1 | h1
    · rcases List.mem_cons.mp h1 with rfl | h1
      · exact Or.inr (.base (List.mem_cons_self w rest))
      · exact Or.inl h1
    · exact Or.inr (ReachableRef_mono (fun x hx => List.mem_cons_of_mem n hx) h1)

theorem gatherStack_nodup (env : List StructDef) (pend vis : List String)
    (hvis : vis.Nodup) : (gatherStack env pend vis).Nodup := by
  induction pend, vis using gatherStack.induct env with
  | case1 vis => rw [gatherStack_nil]; exact hvis
  | case2 n rest vis h ih => rw [gatherStack_cons_mem h]; exact ih hvis
  | case3 n rest vis h d2 hfind ih =>
    rw [gatherStack_cons_some h hfind]
    exact ih (List.nodup_cons.mpr ⟨h, hvis⟩)
  | case4 n rest vis h hfind ih =>
    rw [gatherStack_cons_none h hfind]
    exact ih (List.nodup_cons.mpr ⟨h, hvis⟩)

/-- Full characterisation of the reference-gathering walk: starting from an
empty set, it collects exactly the names transitively reachable from the
definition's direct struct-typed members. -/
theorem gather_reference_structs_mem_iff (env : List StructDef)
    (d : StructDef) (w : String) :
    w ∈ gather_reference_structs env d ↔
      ReachableRef env (directRefNames d) w := by
  constructor
  · intro hw
    rcases gatherStack_sound env (directRefNames d) [] w hw with h | h
    · cases h
    · exact h
  · intro hr
    induction hr with
    | base hb => exact gatherStack_pend_subset env _ [] _ hb
    | step hn hfind hm ih =>
      exact gatherStack_closed env (directRefNames d) []
        (fun p hp => by cases hp) _ ih _ hfind _ hm

theorem gather_reference_structs_nodup (env : List StructDef) (d : StructDef) :
    (gather_reference_structs env d).Nodup :=
  gatherStack_nodup env _ [] List.nodup_nil

theorem findDef_name {env : List StructDef} {n : String} {d : StructDef}
    (h : findDef env n = some d) : d.name = n := by
  have := List.find?_some h
  simpa using this

/-- Lines 86-87: the own (non-recursive) signature
`TypeName(memberType memberName,...)` with members in declaration order. -/
def own_signature (d : StructDef) : String :=
  d.name ++ "(" ++
    String.intercalate "," (d.members.map (fun m => m.2.typeName ++ " " ++ m.1)) ++ ")"

/-- `EIP712Struct._encode_type(resolve_references=True)` (lines 84-95):
the own signature, followed by the own signatures of the gathered reference
structs with the definition itself excluded, sorted by type name (for struct
classes the type name is the class name). -/
def encode_type (env : List StructDef) (d : StructDef) : String :=
  own_signature d ++
    String.join
      ((((gather_reference_structs env d).filter (fun n => n != d.name)).mergeSort
          (fun a b => decide (a ≤ b))).map
        (fun n => ((findDef env n).map own_signature).getD ""))

theorem resolve_all {env : List StructDef} :
    ∀ {ns : List String}, (∀ n ∈ ns, (findDef env n).isSome) →
      ∃ L : List StructDef, L.map StructDef.name = ns ∧
        (∀ d2 ∈ L, findDef env d2.name = some d2) ∧
        ns.map (fun n => ((findDef env n).map own_signature).getD "") =
          L.map own_signature := by
  intro ns
  induction ns with
  | nil => exact fun _ => ⟨[], rfl, fun d2 h => absurd h (List.not_mem_nil d2), rfl⟩
  | cons n ns ih =>
    intro hres
    obtain ⟨d0, hd0⟩ := Option.isSome_iff_exists.mp (hres n (List.mem_cons_self n ns))
    obtain ⟨L, hname, hfind, hsig⟩ := ih (fun m hm => hres m (List.mem_cons_of_mem n hm))
    refine ⟨d0 :: L, ?_, ?_, ?_⟩
    · simp only [List.map_cons, hname, findDef_name hd0]
    · intro d2 hd2
      rcases List.mem_cons.mp hd2 with rfl | hd2
      · rw [findDef_name hd0]; exact hd0
      · exact hfind d2 hd2
    · simp only [List.map_cons, hd0, hsig]
      rfl

/-- UTF-8 bytes of a string, as used by `keccak(text=...)`. -/
def utf8Bytes (s : String) : List Nat := s.toUTF8.toList.map (fun b => b.toNat)

/-- `EIP712Struct.type_hash` (lines 113-116): the keccak hash of the encoded
type string; the hash primitive is the external `eth_utils.crypto.keccak`,
kept abstract as a function from bytes to bytes. -/
def type_hash (keccak : List Nat → List Nat) (env : List StructDef)
    (d : StructDef) : List Nat :=
  keccak (utf8Bytes (encode_type env d))

/-- Struct name referenced through a member type according to the
specification's description of the gathering walk: a direct struct
reference, or the struct element type of an (arbitrarily nested) array. -/
def FieldType.structBaseName : FieldType → Option String
  | .scalar _ => none
  | .structRef s => some s
  | .array e _ => e.structBaseName

/-- The per-definition reference edges described by the specification:
through direct struct-typed members and through array element types. -/
def specDirectRefNames (d : StructDef) : List String :=
  d.members.filterMap (fun m => m.2.structBaseName)

/-- Reachability as described by the specification (array element types
included among the edges). -/
inductive SpecReachableRef (env : List StructDef) (start : List String) :
    String → Prop
  | base {n : String} : n ∈ start → SpecReachableRef env start n
  | step {n m : String} {d : StructDef} : SpecReachableRef env start n →
      findDef env n = some d → m ∈ specDirectRefNames d →
      SpecReachableRef env start m

/-- Counterexample environment for the gathering walk: `A` references `B`
only through an array member `B[2]`. -/
def structAC2 : StructDef := ⟨"A", [("xs", .array (.structRef "B") 2)]⟩

def structBC2 : StructDef := ⟨"B", [("v", .scalar "uint256")]⟩

def envC2 : List StructDef := [structAC2, structBC2]

/-- claim C2, counterexample: `B` is transitively reachable from `A`'s
members through the element type of the array member `xs : B[2]` in the
sense of the specification, and is distinct from `A`, yet the
reference-gathering walk of the code does not collect it (line 99 keeps only
members that are struct classes, so `Array` members are skipped): the claim
that the walk collects all definitions reachable through array element types
fails on this input. -/
theorem claim_C2_counterexample :
    SpecReachableRef envC2 (specDirectRefNames structAC2) "B" ∧ "B" ≠ "A" ∧
      ¬ "B" ∈ gather_reference_structs envC2 structAC2 := by
  refine ⟨.base ?_, by decide, ?_⟩
  · simp [specDirectRefNames, structAC2, FieldType.structBaseName]
  · have hd : directRefNames structAC2 = [] := rfl
    simp [gather_reference_structs, hd, gatherStack_nil]

/-- claim C2 (amended): the reference-gathering walk used by `encode_type`
collects exactly the struct definitions transitively reachable from the
definition's members through **direct struct-typed members** (array element
types are not traversed), excluding the definition itself, and never
re-visits a definition already visited (the gathered set has no
duplicates). -/
theorem claim_C2_gather (env : List StructDef) (d : StructDef) :
    (∀ w, w ∈ (gather_reference_structs env d).filter (fun n => n != d.name) ↔
      (ReachableRef env (directRefNames d) w ∧ w ≠ d.name)) ∧
    (gather_reference_structs env d).Nodup := by
  constructor
  · intro w
    rw [List.mem_filter, gather_reference_structs_mem_iff]
    simp [bne_iff_ne]
  · exact gather_reference_structs_nodup env d

/-- claim C1: `encode_type` returns the definition's own signature
`TypeName(memberType memberName,...)` with members in declaration order,
followed with no separator by the non-recursive signatures of the gathered
referenced struct definitions, the definition itself excluded, sorted by
type name in lexicographic string order. -/
theorem claim_C1_encode_type (env : List StructDef) (d : StructDef)
    (hres : ∀ n ∈ (gather_reference_structs env d).filter
      (fun n => n != d.name), (findDef env n).isSome) :
    ∃ L : List StructDef,
      (L.map StructDef.name).Perm
        ((gather_reference_structs env d).filter (fun n => n != d.name)) ∧
      L.Pairwise (fun a b => a.name ≤ b.name) ∧
      (∀ d2 ∈ L, findDef env d2.name = some d2) ∧
      encode_type env d =
        (d.name ++ "(" ++
          String.intercalate ","
            (d.members.map (fun m => m.2.typeName ++ " " ++ m.1)) ++ ")") ++
        String.join (L.map own_signature) := by
  have hperm : (((gather_reference_structs env d).filter
      (fun n => n != d.name)).mergeSort (fun a b => decide (a ≤ b))).Perm
      ((gather_reference_structs env d).filter (fun n => n != d.name)) :=
    List.mergeSort_perm _ _
  have hres' : ∀ n ∈ ((gather_reference_structs env d).filter
      (fun n => n != d.name)).mergeSort (fun a b => decide (a ≤ b)),
      (findDef env n).isSome :=
    fun n hn => hres n (hperm.mem_iff.mp hn)
  obtain ⟨L, hname, hfind, hsig⟩ := resolve_all hres'
  refine ⟨L, ?_, ?_, hfind, ?_⟩
  · rw [hname]; exact hperm
  · have hsorted : (((gather_reference_structs env d).filter
        (fun n => n != d.name)).mergeSort
        (fun a b => decide (a ≤ b))).Pairwise
        (fun a b => decide (a ≤ b) = true) := by
      apply List.sorted_mergeSort
      · intro a b c hab hbc
        simp only [decide_eq_true_eq] at *
        exact le_trans hab hbc
      · intro a b
        simp only [Bool.or_eq_true, decide_eq_true_eq]
        exact le_total a b
    rw [← hname] at hsorted
    rw [List.pairwise_map] at hsorted
    exact hsorted.imp (fun h => by simpa using h)
  · unfold encode_type
    rw [hsig]
    rfl

/-- Python's exception values observable from the embedded code, together
with the two exception classes named by the specification's error taxonomy
(the embedded module defines neither and never raises them). -/
inductive PyErr where
  | keyError (k : String)
  | typeError
  | attributeError
  | typeResolutionError
  | missingTypeError
deriving DecidableEq

/-- `EIP712Struct.get_data_value` (lines 60-63): `self.values.get(name)`. -/
def get_data_value (vals : List (String × Value)) (name : String) : Option Value :=
  List.lookup name vals

/-- `EIP712Struct.set_data_value` (lines 65-69): assigns only when `name` is
already a key of `self.values`, otherwise does nothing.  Instance value
dictionaries always have distinct keys (Python dict), so updating every
matching entry of the association list coincides with the dict update. -/
def set_data_value (vals : List (String × Value)) (name : String) (v : Value) :
    List (String × Value) :=
  if (List.lookup name vals).isSome then
    vals.map (fun kv => if kv.1 = name then (kv.1, v) else kv)
  else vals

mutual
/-- `EIP712Struct.data_dict` (lines 71-82) on one stored value: a nested
struct instance is converted to its data dictionary, any other value —
including a list that contains struct instances — is returned unchanged. -/
def data_dict_value : Value → Value
  | .inst _ vs => .map (data_dict_value_fields vs)
  | v => v

/-- `EIP712Struct.data_dict` over the `values` dictionary. -/
def data_dict_value_fields : List (String × Value) → List (String × Value)
  | [] => []
  | (k, v) :: rest => (k, data_dict_value v) :: data_dict_value_fields rest
end

theorem sizeOf_lookup_lt {vals : List (String × Value)} {n : String}
    {v : Value} (h : List.lookup n vals = some v) : sizeOf v < sizeOf vals := by
  induction vals with
  | nil => simp [List.lookup] at h
  | cons kv rest ih =>
    rcases kv with ⟨k, w⟩
    rw [List.lookup] at h
    by_cases hk : (n == k) = true
    · simp only [hk] at h
      cases h
      simp only [List.cons.sizeOf_spec, Prod.mk.sizeOf_spec]
      omega
    · simp only [Bool.not_eq_true] at hk
      simp only [hk] at h
      have := ih h
      simp only [List.cons.sizeOf_spec, Prod.mk.sizeOf_spec]
      omega

theorem sizeOf_list_pos (l : List (String × Value)) : 0 < sizeOf l := by
  cases l <;> simp <;> omega

mutual
/-- `EIP712Struct.__init__` (lines 39-47) over the member list: for each
declared member, take `kwargs.get(name)`; a raw dict value is instantiated
through the member's declared type; the result is stored under the member
name.  Keyword arguments whose names match no member are never read. -/
def init_members (env : List StructDef) (ms : List (String × FieldType))
    (kwargs : List (String × Value)) : Except PyErr (List (String × Value)) :=
  match ms with
  | [] => .ok []
  | (n, t) :: rest => do
    let v ← init_value env t (List.lookup n kwargs)
    let vs ← init_members env rest kwargs
    .ok ((n, v) :: vs)
termination_by (sizeOf kwargs + 1, ms.length)
decreasing_by
  · apply Prod.Lex.left
    cases h : List.lookup n kwargs with
    | none =>
      have := sizeOf_list_pos kwargs
      simp only [Option.none.sizeOf_spec]
      omega
    | some v =>
      have := sizeOf_lookup_lt h
      simp only [Option.some.sizeOf_spec]
      omega
  · exact Prod.Lex.right _ (Nat.lt_succ_self _)

/-- One member initialisation: an absent keyword value is stored as `None`;
`typ(**value)` is invoked only when the supplied value is a raw dict
(line 45); calling a non-struct descriptor that way is a `TypeError`. -/
def init_value (env : List StructDef) (t : FieldType) :
    (o : Option Value) → Except PyErr Value
  | none => .ok .vnone
  | some (.map fields) =>
    match t with
    | .structRef s => mk_struct env s fields
    | _ => .error .typeError
  | some v => .ok v
termination_by o => (sizeOf o, 1)
decreasing_by
  · simp only [Option.some.sizeOf_spec, Value.map.sizeOf_spec]
    have he : 1 + (1 + sizeOf fields) = sizeOf fields + 2 := by omega
    rw [he]
    exact Prod.Lex.right _ Nat.zero_lt_one

/-- `typ(**value)` for a struct class `typ`: instantiate the referenced
definition with the dict as keyword arguments.  The name lookup embeds
dereferencing the class object and cannot fail in the source. -/
def mk_struct (env : List StructDef) (s : String)
    (kwargs : List (String × Value)) : Except PyErr Value :=
  match findDef env s with
  | some d => (init_members env d.members kwargs).map (fun vs => .inst d vs)
  | none => .error (.keyError s)
termination_by (sizeOf kwargs + 2, 0)
decreasing_by
  · exact Prod.Lex.left _ _ (Nat.lt_succ_self _)
end

/-- Construction of a struct instance, `MyStruct(**kwargs)`. -/
def instantiate (env : List StructDef) (d : StructDef)
    (kwargs : List (String × Value)) : Except PyErr StructInst :=
  (init_members env d.members kwargs).map (fun vs => ⟨d, vs⟩)

theorem init_value_none (env : List StructDef) (t : FieldType) :
    init_value env t none = .ok .vnone := by
  simp [init_value]

theorem init_members_nil (env : List StructDef)
    (kwargs : List (String × Value)) : init_members env [] kwargs = .ok [] := by
  rw [init_members]

theorem init_members_cons_ok {env : List StructDef} {n : String}
    {t : FieldType} {ms : List (String × FieldType)}
    {kwargs : List (String × Value)} {v' : Value}
    {vs'' : List (String × Value)}
    (h1 : init_value env t (List.lookup n kwargs) = .ok v')
    (h2 : init_members env ms kwargs = .ok vs'') :
    init_members env ((n, t) :: ms) kwargs = .ok ((n, v') :: vs'') := by
  rw [init_members, h1, h2]
  rfl

theorem init_value_some_not_map {env : List StructDef} {t : FieldType}
    {v : Value} (h : ∀ f, v ≠ Value.map f) :
    init_value env t (some v) = .ok v := by
  cases v with
  | map f => exact absurd rfl (h f)
  | vnone => simp [init_value]
  | atom s => simp [init_value]
  | list es => simp [init_value]
  | inst sd vs => simp [init_value]


theorem lookup_isSome_iff_mem {β : Type} {vals : List (String × β)} {n : String} :
    (List.lookup n vals).isSome = true ↔ n ∈ vals.map Prod.fst := by
  induction vals with
  | nil => simp [List.lookup]
  | cons kv rest ih =>
    rcases kv with ⟨k, w⟩
    rw [List.lookup]
    by_cases hk : (n == k) = true
    · have : n = k := by simpa using hk
      simp [hk, this]
    · have : ¬ n = k := by simpa using hk
      simp only [Bool.not_eq_true] at hk
      simp [hk, this, ih]

theorem lookup_map_set_self {vals : List (String × Value)} {name : String}
    {v : Value} (h : name ∈ vals.map Prod.fst) :
    List.lookup name
      (vals.map (fun kv => if kv.1 = name then (kv.1, v) else kv)) = some v := by
  induction vals with
  | nil => cases h
  | cons kv rest ih =>
    rcases kv with ⟨k, w⟩
    simp only [List.map_cons]
    by_cases hk : k = name
    · rw [if_pos hk, List.lookup_cons]
      have : (name == k) = true := by simp [hk.symm]
      rw [this]
    · rw [if_neg hk, List.lookup_cons]
      have hne : (name == k) = false := by
        simp only [beq_eq_false_iff_ne, ne_eq]
        exact fun hh => hk hh.symm
      rw [hne]
      rw [List.map_cons, List.mem_cons] at h
      rcases h with h | h
      · exact absurd h.symm hk
      · exact ih h

theorem lookup_map_set_other {vals : List (String × Value)} {name m : String}
    {v : Value} (hm : m ≠ name) :
    List.lookup m
      (vals.map (fun kv => if kv.1 = name then (kv.1, v) else kv)) =
      List.lookup m vals := by
  induction vals with
  | nil => simp
  | cons kv rest ih =>
    rcases kv with ⟨k, w⟩
    simp only [List.map_cons]
    by_cases hk : k = name
    · rw [if_pos hk, List.lookup_cons, List.lookup_cons]
      have hne : (m == k) = false := by
        simp only [beq_eq_false_iff_ne, ne_eq]
        exact fun hh => hm (hh.trans hk)
      rw [hne, ih]
    · rw [if_neg hk, List.lookup_cons, List.lookup_cons]
      by_cases hmk : (m == k) = true
      · rw [hmk]
      · simp only [Bool.not_eq_true] at hmk
        rw [hmk, ih]

theorem set_data_value_keys (vals : List (String × Value)) (name : String)
    (v : Value) :
    (set_data_value vals name v).map Prod.fst = vals.map Prod.fst := by
  unfold set_data_value
  by_cases h : (List.lookup name vals).isSome = true
  · rw [if_pos h, List.map_map]
    apply List.map_congr_left
    intro kv _
    by_cases hk : kv.1 = name <;> simp [hk]
  · rw [if_neg h]

/-- The `Person` definition of the specification's concrete scenario. -/
def personDef : StructDef :=
  ⟨"Person", [("name", .scalar "string"), ("wallet", .scalar "address")]⟩

/-- The `Mail` definition of the specification's concrete scenario. -/
def mailDef : StructDef :=
  ⟨"Mail", [("from", .structRef "Person"), ("to", .structRef "Person"),
    ("contents", .scalar "string")]⟩

def envMail : List StructDef := [mailDef, personDef]

theorem gather_mail : gather_reference_structs envMail mailDef = ["Person"] := by
  simp [gather_reference_structs, directRefNames, gatherStack, findDef,
    envMail, mailDef, personDef, List.find?]

/-- The concrete scenario of the specification: `encode_type` on `Mail`
produces exactly the canonical type string required by the standard. -/
theorem encode_type_mail :
    encode_type envMail mailDef =
      "Mail(Person from,Person to,string contents)Person(string name,address wallet)" := by
  simp only [encode_type, gather_mail]
  have hf : List.filter (fun n => n != mailDef.name) ["Person"] = ["Person"] := rfl
  rw [hf, List.mergeSort_singleton]
  rfl

/-- claim C1, witness: the statement instantiated at the Mail/Person
environment, all hypotheses discharged on the concrete input. -/
theorem claim_C1_witness :
    ∃ L : List StructDef,
      (L.map StructDef.name).Perm
        ((gather_reference_structs envMail mailDef).filter
          (fun n => n != mailDef.name)) ∧
      L.Pairwise (fun a b => a.name ≤ b.name) ∧
      (∀ d2 ∈ L, findDef envMail d2.name = some d2) ∧
      encode_type envMail mailDef =
        (mailDef.name ++ "(" ++
          String.intercalate ","
            (mailDef.members.map (fun m => m.2.typeName ++ " " ++ m.1)) ++ ")") ++
        String.join (L.map own_signature) :=
  claim_C1_encode_type envMail mailDef (by
    rw [gather_mail]
    intro n hn
    have : n = "Person" := by
      have hf : List.filter (fun n => n != mailDef.name) ["Person"] = ["Person"] := rfl
      rw [hf] at hn
      simpa using hn
    subst this
    rfl)

/-- Lookup is unaffected by filtering the keyword dictionary to an allowed
key set that contains the looked-up key. -/
theorem lookup_filter_of_mem {allowed : List String} {n : String}
    (hn : n ∈ allowed) :
    ∀ {kwargs : List (String × Value)},
      List.lookup n (kwargs.filter (fun kv => allowed.contains kv.1)) =
        List.lookup n kwargs := by
  intro kwargs
  induction kwargs with
  | nil => simp
  | cons kv rest ih =>
    rcases kv with ⟨k, w⟩
    rw [List.filter_cons]
    by_cases hc : allowed.contains k = true
    · rw [if_pos hc, List.lookup_cons, List.lookup_cons]
      cases hnk : (n == k)
      · exact ih
      · rfl
    · rw [if_neg hc]
      have hnk : (n == k) = false := by
        simp only [beq_eq_false_iff_ne, ne_eq]
        intro hh
        subst hh
        exact hc (by simpa [List.contains, List.elem_eq_mem] using hn)
      rw [List.lookup_cons, hnk, ih]

theorem init_members_cons_inv {env : List StructDef} {n : String}
    {t : FieldType} {rest : List (String × FieldType)}
    {kwargs vs : List (String × Value)}
    (h : init_members env ((n, t) :: rest) kwargs = .ok vs) :
    ∃ v vs', init_value env t (List.lookup n kwargs) = .ok v ∧
      init_members env rest kwargs = .ok vs' ∧ vs = (n, v) :: vs' := by
  rw [init_members] at h
  cases h1 : init_value env t (List.lookup n kwargs) with
  | error e =>
    rw [h1] at h
    exact absurd h (by simp [Bind.bind, Except.bind])
  | ok v =>
    rw [h1] at h
    cases h2 : init_members env rest kwargs with
    | error e =>
      rw [h2] at h
      exact absurd h (by simp [Bind.bind, Except.bind])
    | ok vs' =>
      rw [h2] at h
      refine ⟨v, vs', rfl, rfl, ?_⟩
      have := h.symm
      simpa [Bind.bind, Except.bind] using this

theorem init_members_keys {env : List StructDef} :
    ∀ {ms : List (String × FieldType)} {kwargs vs : List (String × Value)},
      init_members env ms kwargs = .ok vs →
      vs.map Prod.fst = ms.map Prod.fst := by
  intro ms
  induction ms with
  | nil =>
    intro kwargs vs h
    rw [init_members] at h
    cases h
    rfl
  | cons m rest ih =>
    intro kwargs vs h
    rcases m with ⟨n, t⟩
    obtain ⟨v, vs', _, h2, rfl⟩ := init_members_cons_inv h
    simp only [List.map_cons]
    rw [ih h2]

theorem init_members_vnone {env : List StructDef} :
    ∀ {ms : List (String × FieldType)} {kwargs vs : List (String × Value)},
      init_members env ms kwargs = .ok vs →
      ∀ n t, (n, t) ∈ ms → List.lookup n kwargs = none →
        List.lookup n vs = some Value.vnone := by
  intro ms
  induction ms with
  | nil =>
    intro kwargs vs _ n t hmem
    cases hmem
  | cons m rest ih =>
    intro kwargs vs h n t hmem hnone
    rcases m with ⟨n0, t0⟩
    obtain ⟨v, vs', h1, h2, rfl⟩ := init_members_cons_inv h
    by_cases hn : (n == n0) = true
    · have heq : n = n0 := by simpa using hn
      subst heq
      rw [hnone] at h1
      rw [init_value] at h1
      cases h1
      rw [List.lookup_cons]
      simp
    · have hn' : (n == n0) = false := by simpa using hn
      rw [List.lookup_cons, hn']
      rcases List.mem_cons.mp hmem with heq | hmem'
      · cases heq
        simp at hn
      · exact ih h2 n t hmem' hnone

theorem init_members_filter {env : List StructDef} {allowed : List String} :
    ∀ {ms : List (String × FieldType)},
      (∀ p ∈ ms, p.1 ∈ allowed) →
      ∀ {kwargs : List (String × Value)},
        init_members env ms
          (kwargs.filter (fun kv => allowed.contains kv.1)) =
          init_members env ms kwargs := by
  intro ms
  induction ms with
  | nil =>
    intro _ kwargs
    rw [init_members, init_members]
  | cons m rest ih =>
    intro hall kwargs
    rcases m with ⟨n, t⟩
    have hn : n ∈ allowed := hall (n, t) (List.mem_cons_self _ _)
    have hrest : ∀ p ∈ rest, p.1 ∈ allowed :=
      fun p hp => hall p (List.mem_cons_of_mem _ hp)
    rw [init_members, init_members]
    simp only [lookup_filter_of_mem hn, ih hrest]

/-- claim C10: after construction, the value dictionary has exactly one
entry per declared member in declaration order; an absent keyword value is
stored as `None`; keyword arguments matching no declared member are ignored;
and `set_data_value` preserves the key set. -/
theorem claim_C10_init_invariant (env : List StructDef) (d : StructDef)
    (kwargs : List (String × Value)) (i : StructInst)
    (h : instantiate env d kwargs = .ok i) :
    i.vals.map Prod.fst = d.members.map Prod.fst ∧
    (∀ n t, (n, t) ∈ d.members → List.lookup n kwargs = none →
      List.lookup n i.vals = some Value.vnone) ∧
    instantiate env d
      (kwargs.filter (fun kv => (d.members.map Prod.fst).contains kv.1)) =
      .ok i ∧
    (∀ name v,
      (set_data_value i.vals name v).map Prod.fst = i.vals.map Prod.fst) := by
  unfold instantiate at h
  cases h0 : init_members env d.members kwargs with
  | error e =>
    rw [h0] at h
    cases h
  | ok vs =>
    rw [h0] at h
    cases h
    refine ⟨init_members_keys h0, ?_, ?_, ?_⟩
    · intro n t hmem hnone
      exact init_members_vnone h0 n t hmem hnone
    · unfold instantiate
      rw [init_members_filter (fun p hp => List.mem_map_of_mem Prod.fst hp), h0]
      rfl
    · intro name v
      exact set_data_value_keys vs name v

/-- claim C10, witness: constructing a `Mail` instance with one supplied
member value and one undeclared keyword argument. -/
theorem claim_C10_witness :
    (StructInst.mk mailDef
        [("from", .vnone), ("to", .vnone), ("contents", .atom "hi")]).vals.map
          Prod.fst = mailDef.members.map Prod.fst ∧
    (∀ n t, (n, t) ∈ mailDef.members →
      List.lookup n [("contents", Value.atom "hi"), ("junk", Value.atom "x")] = none →
      List.lookup n (StructInst.mk mailDef
        [("from", .vnone), ("to", .vnone), ("contents", .atom "hi")]).vals =
        some Value.vnone) ∧
    instantiate envMail mailDef
      ([("contents", Value.atom "hi"), ("junk", Value.atom "x")].filter
        (fun kv => (mailDef.members.map Prod.fst).contains kv.1)) =
      .ok (StructInst.mk mailDef
        [("from", .vnone), ("to", .vnone), ("contents", .atom "hi")]) ∧
    (∀ name v,
      (set_data_value (StructInst.mk mailDef
        [("from", .vnone), ("to", .vnone), ("contents", .atom "hi")]).vals
          name v).map Prod.fst =
      (StructInst.mk mailDef
        [("from", .vnone), ("to", .vnone), ("contents", .atom "hi")]).vals.map
          Prod.fst) :=
  claim_C10_init_invariant envMail mailDef
    [("contents", Value.atom "hi"), ("junk", Value.atom "x")]
    (StructInst.mk mailDef
      [("from", .vnone), ("to", .vnone), ("contents", .atom "hi")])
    (by
      have hnil : init_members envMail []
          [("contents", Value.atom "hi"), ("junk", Value.atom "x")] = .ok [] :=
        init_members_nil envMail _
      have hc : init_members envMail [("contents", FieldType.scalar "string")]
          [("contents", Value.atom "hi"), ("junk", Value.atom "x")] =
          .ok [("contents", Value.atom "hi")] :=
        init_members_cons_ok
          (by
            rw [show List.lookup "contents"
                [("contents", Value.atom "hi"), ("junk", Value.atom "x")] =
              some (Value.atom "hi") from rfl]
            exact init_value_some_not_map (by intro f h; cases h)) hnil
      have ht : init_members envMail
          [("to", FieldType.structRef "Person"),
           ("contents", FieldType.scalar "string")]
          [("contents", Value.atom "hi"), ("junk", Value.atom "x")] =
          .ok [("to", Value.vnone), ("contents", Value.atom "hi")] :=
        init_members_cons_ok
          (by
            rw [show List.lookup "to"
                [("contents", Value.atom "hi"), ("junk", Value.atom "x")] =
              none from rfl]
            exact init_value_none envMail _) hc
      have hf : init_members envMail mailDef.members
          [("contents", Value.atom "hi"), ("junk", Value.atom "x")] =
          .ok [("from", Value.vnone), ("to", Value.vnone),
            ("contents", Value.atom "hi")] :=
        init_members_cons_ok
          (by
            rw [show List.lookup "from"
                [("contents", Value.atom "hi"), ("junk", Value.atom "x")] =
              none from rfl]
            exact init_value_none envMail _) ht
      unfold instantiate
      rw [hf]
      rfl)

/-- claim C9: `set_data_value` on an undeclared name is a silent no-op that
leaves the values unchanged; on a declared member name it updates exactly
that member, leaving every other member's value unchanged. -/
theorem claim_C9_set_data_value (d : StructDef) (vals : List (String × Value))
    (hkeys : vals.map Prod.fst = d.members.map Prod.fst)
    (name : String) (v : Value) :
    (¬ name ∈ d.members.map Prod.fst → set_data_value vals name v = vals) ∧
    (name ∈ d.members.map Prod.fst →
      get_data_value (set_data_value vals name v) name = some v ∧
      ∀ m, m ≠ name →
        get_data_value (set_data_value vals name v) m = get_data_value vals m) := by
  constructor
  · intro hnot
    unfold set_data_value
    rw [if_neg]
    intro hs
    apply hnot
    rw [← hkeys]
    exact lookup_isSome_iff_mem.mp hs
  · intro hmem
    have hmem' : name ∈ vals.map Prod.fst := by rw [hkeys]; exact hmem
    unfold set_data_value get_data_value
    rw [if_pos (lookup_isSome_iff_mem.mpr hmem')]
    exact ⟨lookup_map_set_self hmem', fun m hm => lookup_map_set_other hm⟩

/-- claim C9, witness: a `Person` instance, updating the declared member
`wallet` and observing the no-op contract on the undeclared name. -/
theorem claim_C9_witness :
    (¬ "wallet" ∈ personDef.members.map Prod.fst →
      set_data_value [("name", Value.atom "alice"), ("wallet", Value.atom "0x1")]
        "wallet" (Value.atom "0x2") =
        [("name", Value.atom "alice"), ("wallet", Value.atom "0x1")]) ∧
    ("wallet" ∈ personDef.members.map Prod.fst →
      get_data_value
        (set_data_value [("name", Value.atom "alice"), ("wallet", Value.atom "0x1")]
          "wallet" (Value.atom "0x2")) "wallet" = some (Value.atom "0x2") ∧
      ∀ m, m ≠ "wallet" →
        get_data_value
          (set_data_value [("name", Value.atom "alice"), ("wallet", Value.atom "0x1")]
            "wallet" (Value.atom "0x2")) m =
        get_data_value [("name", Value.atom "alice"), ("wallet", Value.atom "0x1")] m) :=
  claim_C9_set_data_value personDef
    [("name", Value.atom "alice"), ("wallet", Value.atom "0x1")] rfl
    "wallet" (Value.atom "0x2")

/-- The `Person` instance used as the failing input for the plain-data
conversion claim. -/
def personInstVal : Value :=
  Value.inst personDef [("name", .atom "alice"), ("wallet", .atom "0x1")]

/-- claim C8: evaluation of the code at the failing input.  `data_dict`
converts a struct instance stored directly in a field, but returns a
list-valued field unchanged, leaving the live struct instance inside the
list unconverted (lines 77-81 test only `isinstance(v, EIP712Struct)` and
never walk list elements). -/
theorem claim_C8_data_dict :
    data_dict_value_fields [("p", personInstVal), ("ps", Value.list [personInstVal])] =
      [("p", Value.map [("name", .atom "alice"), ("wallet", .atom "0x1")]),
       ("ps", Value.list [personInstVal])] := by
  rfl

theorem sizeOf_vals_lt_inst (sd : StructDef) (vs : List (String × Value)) :
    sizeOf vs + 1 < sizeOf (Value.inst sd vs) := by
  cases sd with
  | mk nm ms =>
    simp only [Value.inst.sizeOf_spec, StructDef.mk.sizeOf_spec]
    omega

mutual
/-- `EIP712Struct.encode_value` (lines 49-58) over the member list:
`b''.join(typ.encode_value(self.values[name]) for name, typ in members)`.
`self.values[name]` is a dict indexing that raises `KeyError` when absent.
The scalar catalog's per-type encoding is the abstract parameter
`scalarEnc` (out of scope per the specification; its contract is that every
result is exactly 32 bytes). -/
def enc_members (scalarEnc : String → Value → List Nat)
    (ms : List (String × FieldType)) (vals : List (String × Value)) :
    Except PyErr (List Nat) :=
  match ms with
  | [] => .ok []
  | (n, t) :: rest =>
    match hlook : List.lookup n vals with
    | none => .error (.keyError n)
    | some v => do
      let bs ← enc_typed scalarEnc t v
      let rest_bs ← enc_members scalarEnc rest vals
      .ok (bs ++ rest_bs)
termination_by (sizeOf vals + 1, ms.length)
decreasing_by
  · apply Prod.Lex.left
    have := sizeOf_lookup_lt hlook
    omega
  · exact Prod.Lex.right _ (Nat.lt_succ_self _)

/-- `typ.encode_value(value)` for one member.  A scalar descriptor encodes
through the external catalog.  An `Array` descriptor (modelled from the
spec, `eip712_structs.types` not being part of the encoded module)
concatenates the element-type encodings of the elements.  A struct class
invoked as `StructClass.encode_value(value)` binds `self = value`, so it
runs the struct `encode_value` body on the nested instance's own class and
values — returning the nested instance's flat concatenation, not a 32-byte
hash — and raises `AttributeError` when the value is not an instance. -/
def enc_typed (scalarEnc : String → Value → List Nat) (t : FieldType)
    (v : Value) : Except PyErr (List Nat) :=
  match t with
  | .scalar tn => .ok (scalarEnc tn v)
  | .array elem _ =>
    match v with
    | .list es => enc_list scalarEnc elem es
    | _ => .error .typeError
  | .structRef _ =>
    match v with
    | .inst sd vs => enc_members scalarEnc sd.members vs
    | _ => .error .attributeError
termination_by (sizeOf v, 0)
decreasing_by
  · apply Prod.Lex.left
    simp only [Value.list.sizeOf_spec]
    omega
  · apply Prod.Lex.left
    exact sizeOf_vals_lt_inst _ _

/-- Concatenation of the element encodings of an array value. -/
def enc_list (scalarEnc : String → Value → List Nat) (elem : FieldType)
    (es : List Value) : Except PyErr (List Nat) :=
  match es with
  | [] => .ok []
  | e :: rest => do
    let bs ← enc_typed scalarEnc elem e
    let rest_bs ← enc_list scalarEnc elem rest
    .ok (bs ++ rest_bs)
termination_by (sizeOf es, 1)
decreasing_by
  · apply Prod.Lex.left
    simp only [List.cons.sizeOf_spec]
    omega
  · apply Prod.Lex.left
    simp only [List.cons.sizeOf_spec]
    omega
end

/-- `instance.encode_value()` for a struct instance: the concatenation of
the per-member encodings, in declaration order (the source binds the body
of the data encoding to `encode_value`; no hashing is involved). -/
def encode_value (scalarEnc : String → Value → List Nat) (i : StructInst) :
    Except PyErr (List Nat) :=
  enc_members scalarEnc i.sdef.members i.vals

/-- Modelled from the spec: a stand-in for the external scalar catalog in
which every scalar encoding is exactly 32 bytes, as §4.1 requires. -/
def constEnc : String → Value → List Nat := fun _ _ => List.replicate 32 0

/-- Modelled from the spec: the field-type interface of the external
`eip712_structs.types` module provides only `type_name` and `encode_value`
(spec §3 and §6), so the call `self.encode_data()` on line 123 of
`hash_struct` resolves to no method at all — the data-encoding body is
bound to `encode_value` in this module — and raises `AttributeError`. -/
def hash_struct : Except PyErr (List Nat) := .error .attributeError

/-- The `Mail` instance used as the failing input for the data-encoding
claim: both `from` and `to` hold nested `Person` instances. -/
def mailInst : StructInst :=
  ⟨mailDef, [("from", personInstVal), ("to", personInstVal),
    ("contents", .atom "hi")]⟩

theorem enc_members_nil (se : String → Value → List Nat)
    (vals : List (String × Value)) : enc_members se [] vals = .ok [] := by
  rw [enc_members]

theorem enc_typed_scalar (se : String → Value → List Nat) (tn : String)
    (v : Value) : enc_typed se (.scalar tn) v = .ok (se tn v) := by
  rw [enc_typed]

theorem enc_typed_inst (se : String → Value → List Nat) (s : String)
    (sd : StructDef) (vs : List (String × Value)) :
    enc_typed se (.structRef s) (.inst sd vs) = enc_members se sd.members vs := by
  rw [enc_typed]

theorem enc_members_cons {se : String → Value → List Nat} {n : String}
    {t : FieldType} {rest : List (String × FieldType)}
    {vals : List (String × Value)} {v : Value} {bs rest_bs : List Nat}
    (h : List.lookup n vals = some v)
    (h1 : enc_typed se t v = .ok bs)
    (h2 : enc_members se rest vals = .ok rest_bs) :
    enc_members se ((n, t) :: rest) vals = .ok (bs ++ rest_bs) := by
  rw [enc_members]
  split
  · rename_i heq
    rw [h] at heq
    cases heq
  · rename_i v' heq
    rw [h] at heq
    cases heq
    rw [h1, h2]
    rfl

/-- claim C3: evaluation of the code at the failing input.  With every
scalar encoding exactly 32 bytes, the encoding of a `Mail` instance whose
`from`/`to` members hold `Person` instances is 160 bytes: each struct-typed
member contributes the nested instance's flat 64-byte data encoding (its
two scalar members), not a 32-byte struct hash, so the total is not
`32 * member_count = 96`. -/
theorem claim_C3_encode_value :
    ∃ bs, encode_value constEnc mailInst = .ok bs ∧ bs.length = 160 ∧
      32 * mailInst.sdef.members.length = 96 := by
  have hnil : enc_members constEnc []
      [("name", Value.atom "alice"), ("wallet", Value.atom "0x1")] = .ok [] :=
    enc_members_nil _ _
  have hw : enc_members constEnc [("wallet", FieldType.scalar "address")]
      [("name", Value.atom "alice"), ("wallet", Value.atom "0x1")] =
      .ok (List.replicate 32 0 ++ []) :=
    enc_members_cons rfl (enc_typed_scalar _ _ _) hnil
  have hperson : enc_members constEnc personDef.members
      [("name", Value.atom "alice"), ("wallet", Value.atom "0x1")] =
      .ok (List.replicate 32 0 ++ (List.replicate 32 0 ++ [])) :=
    enc_members_cons rfl (enc_typed_scalar _ _ _) hw
  have hnil2 : enc_members constEnc [] mailInst.vals = .ok [] :=
    enc_members_nil _ _
  have hcontents : enc_members constEnc
      [("contents", FieldType.scalar "string")] mailInst.vals =
      .ok (List.replicate 32 0 ++ []) :=
    enc_members_cons rfl (enc_typed_scalar _ _ _) hnil2
  have hto : enc_members constEnc
      [("to", FieldType.structRef "Person"),
       ("contents", FieldType.scalar "string")] mailInst.vals =
      .ok ((List.replicate 32 0 ++ (List.replicate 32 0 ++ [])) ++
        (List.replicate 32 0 ++ [])) :=
    enc_members_cons rfl (by unfold personInstVal; rw [enc_typed_inst]; exact hperson) hcontents
  have hmail : enc_members constEnc mailDef.members mailInst.vals =
      .ok ((List.replicate 32 0 ++ (List.replicate 32 0 ++ [])) ++
        ((List.replicate 32 0 ++ (List.replicate 32 0 ++ [])) ++
          (List.replicate 32 0 ++ []))) :=
    enc_members_cons rfl (by unfold personInstVal; rw [enc_typed_inst]; exact hperson) hto
  refine ⟨_, hmail, ?_, rfl⟩
  simp [List.length_append, List.length_replicate]

/-- A wire dictionary (§6): `primaryType`, the type table, and the plain
value dictionaries for `domain` and `message`.  The source passes Python
dicts; association lists with distinct keys embed them. -/
structure WireDict where
  primaryType : String
  types : List (String × List (String × String))
  domain : List (String × Value)
  message : List (String × Value)

/-- Python dict insertion: replace in place when the key exists (keeping
its first-insertion position), append otherwise. -/
def insertEntry {β : Type} : List (String × β) → String → β → List (String × β)
  | [], k, v => [(k, v)]
  | (k0, v0) :: rest, k, v =>
    if k0 = k then (k0, v) :: rest else (k0, v0) :: insertEntry rest k v

/-- The member list of a type-table entry (lines 158-161):
`[{name, type: member.type.type_name} for member in members]`. -/
def members_json (d : StructDef) : List (String × String) :=
  d.members.map (fun m => (m.1, m.2.typeName))

/-- `struct_to_dict` (lines 136-173).  The collected set is
`{domain, primary}` plus the reference structs gathered from the primary
struct only (lines 152-153); the table dict is keyed by type name, so the
set's iteration order does not affect its content; the returned hash is
`keccak(b'\x19\x01' + domain.type_hash() + primary_struct.type_hash())`
(line 171). -/
def struct_to_dict (keccak : List Nat → List Nat) (env : List StructDef)
    (primary domain : StructInst) : WireDict × List Nat :=
  let base : List (String × List (String × String)) :=
    insertEntry (insertEntry [] domain.sdef.name (members_json domain.sdef))
      primary.sdef.name (members_json primary.sdef)
  let types := (gather_reference_structs env primary.sdef).foldl
    (fun acc n => match findDef env n with
      | some d2 => insertEntry acc n (members_json d2)
      | none => acc) base
  (⟨primary.sdef.name, types,
    data_dict_value_fields domain.vals, data_dict_value_fields primary.vals⟩,
   keccak ([0x19, 0x01] ++ type_hash keccak env domain.sdef ++
     type_hash keccak env primary.sdef))

/-- claim C5: the signing hash returned by `struct_to_dict` is the keccak
hash of the two literal version bytes `0x19 0x01` followed by the type hash
of the domain instance's definition and then the type hash of the primary
instance's definition.  The hash primitive is universally quantified. -/
theorem claim_C5_signing_hash (keccak : List Nat → List Nat)
    (env : List StructDef) (primary domain : StructInst) :
    (struct_to_dict keccak env primary domain).2 =
      keccak ([0x19, 0x01] ++ keccak (utf8Bytes (encode_type env domain.sdef))
        ++ keccak (utf8Bytes (encode_type env primary.sdef))) := rfl

/-- Identifier characters of the resolution regex, `[a-zA-Z0-9_]`. -/
def isIdentChar (c : Char) : Bool := c.isAlphanum || c = '_'

/-- The embedding of `re.match(r'([a-zA-Z0-9_]+)(\[(\d+)?\])?', s)`
(line 201): the longest identifier prefix, and the optional bracket group
with its optional digits.  `re.match` anchors only at the start, so
trailing input is ignored; `none` when the string does not begin with an
identifier character. -/
def parseTypeRef (s : String) : Option (String × Option (Option Nat)) :=
  let cs := s.toList
  let base := cs.takeWhile isIdentChar
  if base.isEmpty then none
  else
    let rest := cs.drop base.length
    let bracket : Option (Option Nat) :=
      match rest with
      | '[' :: cs2 =>
        let ds := cs2.takeWhile Char.isDigit
        match cs2.drop ds.length with
        | ']' :: _ =>
          some (if ds.isEmpty then none
            else some (ds.foldl (fun acc c => acc * 10 + (c.toNat - 48)) 0))
        | _ => none
      | _ => none
    some (⟨base⟩, bracket)

/-- Modelled from the spec: digit suffix of `uintN`-style atomic names. -/
def isDigitSuffix (cs : List Char) : Bool := !cs.isEmpty && cs.all Char.isDigit

/-- Modelled from the spec: name recognition of the external scalar
catalog — at minimum the EIP-712 atomic types `bytesN`, `uintN`, `intN`,
`bool`, `address`, `string`, `bytes` (§6). -/
def isAtomicScalarName (b : String) : Bool :=
  b = "bool" || b = "address" || b = "string" || b = "bytes" ||
  (b.toList.take 4 = ['u', 'i', 'n', 't'] && isDigitSuffix (b.toList.drop 4)) ||
  (b.toList.take 3 = ['i', 'n', 't'] && isDigitSuffix (b.toList.drop 3)) ||
  (b.toList.take 5 = ['b', 'y', 't', 'e', 's'] && isDigitSuffix (b.toList.drop 5))

/-- Modelled from the spec: `from_solidity_type` of the external scalar
catalog (`eip712_structs.types` is not part of the embedded module): maps a
solidity-style type string to a scalar descriptor, or an `Array` of one
when a bracket suffix is present, and `None` for any name outside the
catalog — signalling a struct or array-of-struct reference to the Wire
Bridge (§6, §4.4). -/
def from_solidity_type (s : String) : Option FieldType :=
  match parseTypeRef s with
  | none => none
  | some (base, br) =>
    if isAtomicScalarName base then
      match br with
      | none => some (.scalar base)
      | some lenOpt => some (.array (.scalar base) (lenOpt.getD 0))
    else none

/-- Resolution of a deferred struct reference (second pass, lines 200-213):
parse with the regex; the base identifier must name a declared struct —
`structs[base_type_name]` raises `KeyError` otherwise; a bracket group
makes the member an `Array` of the struct, absent digits meaning dynamic
length `0`.  A string not beginning with an identifier character makes
`re.match` return `None` and the following `.group` call raise
`AttributeError`. -/
def resolveRef (keyNames : List String) (ts : String) : Except PyErr FieldType :=
  match parseTypeRef ts with
  | none => .error .attributeError
  | some (base, br) =>
    if keyNames.contains base then
      match br with
      | some lenOpt => .ok (.array (.structRef base) (lenOpt.getD 0))
      | none => .ok (.structRef base)
    else .error (.keyError base)

/-- One member of a wire entry: a basic solidity type is attached in the
first pass (line 191); otherwise the reference is deferred and resolved in
the second pass against the declared type names.  The first pass cannot
fail, so fusing the two passes preserves both the resulting member and the
first error raised. -/
def resolveMember (keyNames : List String) (nt : String × String) :
    Except PyErr (String × FieldType) :=
  match from_solidity_type nt.2 with
  | some ft => .ok (nt.1, ft)
  | none => (resolveRef keyNames nt.2).map (fun ft => (nt.1, ft))

/-- Fold a wire entry's member list into a member list with `setattr`
semantics (a repeated name keeps its first position, last value wins). -/
def resolveMembers (keyNames : List String) :
    List (String × String) → List (String × FieldType) →
    Except PyErr (List (String × FieldType))
  | [], acc => .ok acc
  | nt :: rest, acc =>
    match resolveMember keyNames nt with
    | .error e => .error e
    | .ok m => resolveMembers keyNames rest (insertEntry acc m.1 m.2)

/-- First-plus-second pass over the type table: build one definition per
entry (dict semantics on the table key). -/
def buildDefs (keyNames : List String) :
    List (String × List (String × String)) → List (String × StructDef) →
    Except PyErr (List (String × StructDef))
  | [], acc => .ok acc
  | (tn, entries) :: rest, acc =>
    match resolveMembers keyNames entries [] with
    | .error e => .error e
    | .ok ms => buildDefs keyNames rest (insertEntry acc tn ⟨tn, ms⟩)

/-- `struct_from_dict` (lines 176-218): build the definitions from the type
table, look up the primary and domain definitions (`KeyError` when absent),
and instantiate the primary then the domain instance from the `message`
and `domain` value dictionaries. -/
def struct_from_dict (w : WireDict) : Except PyErr (StructInst × StructInst) :=
  match buildDefs (w.types.map Prod.fst) w.types [] with
  | .error e => .error e
  | .ok table =>
    match List.lookup w.primaryType table with
    | none => .error (.keyError w.primaryType)
    | some pdef =>
      match List.lookup "EIP712Domain" table with
      | none => .error (.keyError "EIP712Domain")
      | some ddef =>
        match instantiate (table.map Prod.snd) pdef w.message with
        | .error e => .error e
        | .ok p =>
          match instantiate (table.map Prod.snd) ddef w.domain with
          | .error e => .error e
          | .ok d2 => .ok (p, d2)

theorem lookup_insertEntry_self {β : Type} (l : List (String × β))
    (k : String) (v : β) : List.lookup k (insertEntry l k v) = some v := by
  induction l with
  | nil => rw [insertEntry]; exact List.lookup_cons_self
  | cons kv rest ih =>
    rcases kv with ⟨k0, v0⟩
    rw [insertEntry]
    by_cases hk : k0 = k
    · rw [if_pos hk]
      subst hk
      exact List.lookup_cons_self
    · rw [if_neg hk, List.lookup_cons]
      have : (k == k0) = false := by
        simp only [beq_eq_false_iff_ne, ne_eq]
        exact fun hh => hk hh.symm
      rw [this]
      exact ih

theorem lookup_insertEntry_other {β : Type} {l : List (String × β)}
    {k k' : String} (h : k' ≠ k) (v : β) :
    List.lookup k' (insertEntry l k v) = List.lookup k' l := by
  induction l with
  | nil =>
    rw [insertEntry, List.lookup_cons]
    have : (k' == k) = false := by
      simp only [beq_eq_false_iff_ne, ne_eq]
      exact h
    rw [this]
  | cons kv rest ih =>
    rcases kv with ⟨k0, v0⟩
    rw [insertEntry]
    by_cases hk : k0 = k
    · rw [if_pos hk, List.lookup_cons, List.lookup_cons]
      subst hk
      have : (k' == k0) = false := by
        simp only [beq_eq_false_iff_ne, ne_eq]
        exact h
      rw [this]
    · rw [if_neg hk, List.lookup_cons, List.lookup_cons]
      cases hk' : (k' == k0)
      · exact ih
      · rfl

theorem lookup_insertEntry_isSome {β : Type} {l : List (String × β)}
    {k k' : String} {v : β} :
    (List.lookup k' (insertEntry l k v)).isSome ↔
      (k' = k ∨ (List.lookup k' l).isSome) := by
  by_cases hk : k' = k
  · subst hk
    rw [lookup_insertEntry_self]
    simp
  · rw [lookup_insertEntry_other hk]
    simp [hk]

/-- The type-table accumulation over the gathered reference names, as
`struct_to_dict` folds it. -/
def add_types (env : List StructDef) (ns : List String)
    (acc : List (String × List (String × String))) :
    List (String × List (String × String)) :=
  ns.foldl (fun acc n => match findDef env n with
    | some d2 => insertEntry acc n (members_json d2)
    | none => acc) acc

theorem add_types_lookup_isSome {env : List StructDef} :
    ∀ {ns : List String} {acc : List (String × List (String × String))}
      {k : String}, (∀ n ∈ ns, (findDef env n).isSome) →
      ((List.lookup k (add_types env ns acc)).isSome ↔
        ((List.lookup k acc).isSome ∨ k ∈ ns)) := by
  intro ns
  induction ns with
  | nil =>
    intro acc k _
    simp [add_types]
  | cons n rest ih =>
    intro acc k hres
    obtain ⟨d2, hd2⟩ := Option.isSome_iff_exists.mp
      (hres n (List.mem_cons_self n rest))
    have hstep : add_types env (n :: rest) acc =
        add_types env rest (insertEntry acc n (members_json d2)) := by
      simp only [add_types, List.foldl_cons, hd2]
    rw [hstep, ih (fun m hm => hres m (List.mem_cons_of_mem n hm))]
    rw [lookup_insertEntry_isSome]
    constructor
    · rintro ((h | h) | h)
      · subst h
        exact Or.inr (List.mem_cons_self _ _)
      · exact Or.inl h
      · exact Or.inr (List.mem_cons_of_mem n h)
    · rintro (h | h)
      · exact Or.inl (Or.inr h)
      · rcases List.mem_cons.mp h with rfl | h
        · exact Or.inl (Or.inl rfl)
        · exact Or.inr h

theorem add_types_content {env : List StructDef} :
    ∀ {ns : List String} {acc : List (String × List (String × String))},
      (∀ k e, List.lookup k acc = some e →
        ∃ d2, findDef env k = some d2 ∧ e = members_json d2) →
      ∀ k e, List.lookup k (add_types env ns acc) = some e →
        ∃ d2, findDef env k = some d2 ∧ e = members_json d2 := by
  intro ns
  induction ns with
  | nil =>
    intro acc hacc k e h
    exact hacc k e (by simpa [add_types] using h)
  | cons n rest ih =>
    intro acc hacc k e h
    cases hd2 : findDef env n with
    | none =>
      have hstep : add_types env (n :: rest) acc = add_types env rest acc := by
        simp only [add_types, List.foldl_cons, hd2]
      rw [hstep] at h
      exact ih hacc k e h
    | some d2 =>
      have hstep : add_types env (n :: rest) acc =
          add_types env rest (insertEntry acc n (members_json d2)) := by
        simp only [add_types, List.foldl_cons, hd2]
      rw [hstep] at h
      refine ih ?_ k e h
      intro k' e' h'
      by_cases hk : k' = n
      · subst hk
        rw [lookup_insertEntry_self] at h'
        cases h'
        exact ⟨d2, hd2, rfl⟩
      · rw [lookup_insertEntry_other hk] at h'
        exact hacc k' e' h'

/-- claim C6 (amended): the wire type table produced by `struct_to_dict`
contains exactly the definitions of the domain instance, the primary
instance, and every definition the reference-gathering walk reaches from
the primary instance's definition — the walk is not applied to the domain
definition — keyed by type name, each entry listing the definition's
members as (name, type-name) pairs. -/
theorem claim_C6_types_table (keccak : List Nat → List Nat)
    (env : List StructDef) (p d : StructInst)
    (hd : findDef env d.sdef.name = some d.sdef)
    (hp : findDef env p.sdef.name = some p.sdef)
    (hres : ∀ n ∈ gather_reference_structs env p.sdef, (findDef env n).isSome) :
    (∀ k, (List.lookup k (struct_to_dict keccak env p d).1.types).isSome ↔
      (k = d.sdef.name ∨ k = p.sdef.name ∨
        k ∈ gather_reference_structs env p.sdef)) ∧
    (∀ k e, List.lookup k (struct_to_dict keccak env p d).1.types = some e →
      ∃ d2, findDef env k = some d2 ∧ e = members_json d2) := by
  have htypes : (struct_to_dict keccak env p d).1.types =
      add_types env (gather_reference_structs env p.sdef)
        (insertEntry (insertEntry [] d.sdef.name (members_json d.sdef))
          p.sdef.name (members_json p.sdef)) := rfl
  have hbase_some : ∀ k,
      (List.lookup k (insertEntry (insertEntry [] d.sdef.name
        (members_json d.sdef)) p.sdef.name (members_json p.sdef))).isSome ↔
      (k = d.sdef.name ∨ k = p.sdef.name) := by
    intro k
    rw [lookup_insertEntry_isSome, lookup_insertEntry_isSome]
    simp [or_comm, List.lookup]
  have hbase_content : ∀ k e,
      List.lookup k (insertEntry (insertEntry [] d.sdef.name
        (members_json d.sdef)) p.sdef.name (members_json p.sdef)) = some e →
      ∃ d2, findDef env k = some d2 ∧ e = members_json d2 := by
    intro k e h
    by_cases hk : k = p.sdef.name
    · subst hk
      rw [lookup_insertEntry_self] at h
      cases h
      exact ⟨p.sdef, hp, rfl⟩
    · rw [lookup_insertEntry_other hk] at h
      by_cases hk2 : k = d.sdef.name
      · subst hk2
        rw [lookup_insertEntry_self] at h
        cases h
        exact ⟨d.sdef, hd, rfl⟩
      · rw [lookup_insertEntry_other hk2] at h
        simp [List.lookup] at h
  constructor
  · intro k
    rw [htypes, add_types_lookup_isSome hres, hbase_some]
    tauto
  · intro k e h
    rw [htypes] at h
    exact add_types_content hbase_content k e h

def domainDefC6 : StructDef := ⟨"MyDomain", [("e", .structRef "Extra")]⟩

def extraDefC6 : StructDef := ⟨"Extra", [("x", .scalar "uint256")]⟩

def primDefC6 : StructDef := ⟨"Prim", [("y", .scalar "uint256")]⟩

def envC6 : List StructDef := [domainDefC6, extraDefC6, primDefC6]

/-- A concrete stand-in hash primitive for counterexamples whose statement
does not depend on hash values. -/
def kec0 : List Nat → List Nat := fun _ => []

/-- claim C6, counterexample: `Extra` is reachable from the domain
definition by the reference-gathering walk, but `struct_to_dict` gathers
from the primary struct only (line 153), so the type table lacks the
`Extra` entry that the claim requires. -/
theorem claim_C6_counterexample :
    ReachableRef envC6 (directRefNames domainDefC6) "Extra" ∧
    ¬ ("Extra" ∈ ((struct_to_dict kec0 envC6 ⟨primDefC6, [("y", .atom "1")]⟩
      ⟨domainDefC6, [("e", .vnone)]⟩).1.types.map Prod.fst)) := by
  constructor
  · exact .base (by simp [directRefNames, domainDefC6])
  · have hg : gather_reference_structs envC6 primDefC6 = [] := by
      have hdr : directRefNames primDefC6 = [] := rfl
      rw [gather_reference_structs, hdr, gatherStack_nil]
    simp only [struct_to_dict, hg]
    decide

def domainDefW : StructDef := ⟨"EIP712Domain", [("name", .scalar "string")]⟩

def envWire : List StructDef := [domainDefW, mailDef, personDef]

theorem gather_mail_wire : gather_reference_structs envWire mailDef = ["Person"] := by
  simp [gather_reference_structs, directRefNames, gatherStack, findDef,
    envWire, mailDef, personDef, domainDefW, List.find?]

/-- claim C6, witness: the amended statement at a concrete Mail/Person
environment with a flat `EIP712Domain`. -/
theorem claim_C6_witness :
    (∀ k, (List.lookup k (struct_to_dict kec0 envWire
        ⟨mailDef, [("contents", .atom "hi")]⟩
        ⟨domainDefW, [("name", .atom "Test")]⟩).1.types).isSome ↔
      (k = (StructInst.mk domainDefW [("name", .atom "Test")]).sdef.name ∨
        k = (StructInst.mk mailDef [("contents", .atom "hi")]).sdef.name ∨
        k ∈ gather_reference_structs envWire
          (StructInst.mk mailDef [("contents", .atom "hi")]).sdef)) ∧
    (∀ k e, List.lookup k (struct_to_dict kec0 envWire
        ⟨mailDef, [("contents", .atom "hi")]⟩
        ⟨domainDefW, [("name", .atom "Test")]⟩).1.types = some e →
      ∃ d2, findDef envWire k = some d2 ∧ e = members_json d2) :=
  claim_C6_types_table kec0 envWire
    ⟨mailDef, [("contents", .atom "hi")]⟩
    ⟨domainDefW, [("name", .atom "Test")]⟩
    rfl rfl (by
      rw [gather_mail_wire]
      intro n hn
      have : n = "Person" := by simpa using hn
      subst this
      rfl)

theorem resolveRef_error {keyNames : List String} {ts : String} {e : PyErr}
    (h : resolveRef keyNames ts = .error e) :
    (∃ b, e = .keyError b ∧ ¬ b ∈ keyNames) ∨ e = .attributeError := by
  unfold resolveRef at h
  split at h
  · cases h
    exact Or.inr rfl
  · split at h
    · split at h <;> cases h
    · rename_i hc
      cases h
      refine Or.inl ⟨_, rfl, ?_⟩
      intro hmem
      exact hc (by simpa [List.contains, List.elem_eq_mem] using hmem)

theorem resolveMember_error {keyNames : List String} {nt : String × String}
    {e : PyErr} (h : resolveMember keyNames nt = .error e) :
    (∃ b, e = .keyError b ∧ ¬ b ∈ keyNames) ∨ e = .attributeError := by
  unfold resolveMember at h
  cases hs : from_solidity_type nt.2 with
  | some ft => rw [hs] at h; cases h
  | none =>
    rw [hs] at h
    cases hr : resolveRef keyNames nt.2 with
    | ok ft => rw [hr] at h; cases h
    | error e' =>
      rw [hr] at h
      cases h
      exact resolveRef_error hr

theorem resolveMembers_error {keyNames : List String} :
    ∀ {nts : List (String × String)} {acc : List (String × FieldType)}
      {e : PyErr}, resolveMembers keyNames nts acc = .error e →
      (∃ b, e = .keyError b ∧ ¬ b ∈ keyNames) ∨ e = .attributeError := by
  intro nts
  induction nts with
  | nil =>
    intro acc e h
    rw [resolveMembers] at h
    cases h
  | cons nt rest ih =>
    intro acc e h
    rw [resolveMembers] at h
    split at h
    · rename_i e' hm
      cases h
      exact resolveMember_error hm
    · exact ih h

theorem buildDefs_error {keyNames : List String} :
    ∀ {entries : List (String × List (String × String))}
      {acc : List (String × StructDef)} {e : PyErr},
      buildDefs keyNames entries acc = .error e →
      (∃ b, e = .keyError b ∧ ¬ b ∈ keyNames) ∨ e = .attributeError := by
  intro entries
  induction entries with
  | nil =>
    intro acc e h
    rw [buildDefs] at h
    cases h
  | cons entry rest ih =>
    intro acc e h
    rcases entry with ⟨tn, ms⟩
    rw [buildDefs] at h
    split at h
    · rename_i e' hm
      cases h
      exact resolveMembers_error hm
    · exact ih h

/-- claim C7 (amended): all three failure modes abort `struct_from_dict`
with a lookup failure — a `KeyError` naming the unresolved identifier, or
an `AttributeError` for a type string with no identifier prefix — not with
`TypeResolutionError` or `MissingTypeError`, classes the module never
defines or raises: an unresolvable member type string fails with a
`KeyError` naming a base identifier that is not a declared type-table key;
a type table without an `"EIP712Domain"` entry fails with
`KeyError "EIP712Domain"`; an absent `primaryType` entry fails with a
`KeyError` naming it. -/
theorem claim_C7_from_wire_failures (w : WireDict) :
    (∀ e, buildDefs (w.types.map Prod.fst) w.types [] = .error e →
      (struct_from_dict w = .error e ∧
        ((∃ b, e = .keyError b ∧ ¬ b ∈ w.types.map Prod.fst) ∨
          e = .attributeError))) ∧
    (∀ table pdef, buildDefs (w.types.map Prod.fst) w.types [] = .ok table →
      List.lookup w.primaryType table = some pdef →
      List.lookup "EIP712Domain" table = none →
      struct_from_dict w = .error (.keyError "EIP712Domain")) ∧
    (∀ table, buildDefs (w.types.map Prod.fst) w.types [] = .ok table →
      List.lookup w.primaryType table = none →
      struct_from_dict w = .error (.keyError w.primaryType)) := by
  refine ⟨?_, ?_, ?_⟩
  · intro e hbd
    constructor
    · unfold struct_from_dict
      simp only [hbd]
    · exact buildDefs_error hbd
  · intro table pdef hbd hp hd
    unfold struct_from_dict
    simp only [hbd, hp, hd]
  · intro table hbd hp
    unfold struct_from_dict
    simp only [hbd, hp]

/-- claim C7, counterexample: the failures are plain `KeyError` lookup
failures, not the `TypeResolutionError`/`MissingTypeError` taxonomy the
claim names — on a member type string `"Missing"` naming no scalar and no
declared struct, and on a type table without an `"EIP712Domain"` entry. -/
theorem claim_C7_counterexample :
    struct_from_dict ⟨"Prim", [("Prim", [("x", "Missing")])], [], []⟩ =
      .error (.keyError "Missing") ∧
    PyErr.keyError "Missing" ≠ PyErr.typeResolutionError ∧
    struct_from_dict ⟨"Prim", [("Prim", [("y", "uint256")])], [], []⟩ =
      .error (.keyError "EIP712Domain") ∧
    PyErr.keyError "EIP712Domain" ≠ PyErr.missingTypeError := by
  exact ⟨rfl, by decide, rfl, by decide⟩

/-- claim C7, witness: the amended statement applied to the two concrete
wire dictionaries, every hypothesis discharged by computation. -/
theorem claim_C7_witness :
    (struct_from_dict ⟨"Prim", [("Prim", [("z", "Missing2")])], [], []⟩ =
        .error (.keyError "Missing2") ∧
      ((∃ b, PyErr.keyError "Missing2" = .keyError b ∧
        ¬ b ∈ [("Prim", [("z", "Missing2")])].map
          (fun kv : String × List (String × String) => kv.1)) ∨
        PyErr.keyError "Missing2" = .attributeError)) ∧
    struct_from_dict ⟨"NoSuch", [("Other", [("y", "uint256")])], [], []⟩ =
      .error (.keyError "NoSuch") :=
  ⟨(claim_C7_from_wire_failures
      ⟨"Prim", [("Prim", [("z", "Missing2")])], [], []⟩).1
        (PyErr.keyError "Missing2") rfl,
   (claim_C7_from_wire_failures
      ⟨"NoSuch", [("Other", [("y", "uint256")])], [], []⟩).2.2
        [("Other", ⟨"Other", [("y", .scalar "uint256")]⟩)] rfl rfl⟩

theorem insertEntry_keys {β : Type} :
    ∀ {l : List (String × β)} {k : String} {v : β},
      (insertEntry l k v).map Prod.fst =
        (if k ∈ l.map Prod.fst then l.map Prod.fst else l.map Prod.fst ++ [k]) := by
  intro l
  induction l with
  | nil => intro k v; simp [insertEntry]
  | cons kv rest ih =>
    intro k v
    rcases kv with ⟨k0, v0⟩
    rw [insertEntry]
    by_cases hk : k0 = k
    · subst hk
      simp
    · rw [if_neg hk]
      simp only [List.map_cons, ih, List.mem_cons]
      by_cases hmem : k ∈ rest.map Prod.fst
      · rw [if_pos hmem, if_pos (Or.inr hmem)]
      · rw [if_neg hmem, if_neg ?_]
        · rfl
        · rintro (h | h)
          · exact hk h.symm
          · exact hmem h

theorem insertEntry_keys_nodup {β : Type} {l : List (String × β)}
    (h : (l.map Prod.fst).Nodup) (k : String) (v : β) :
    ((insertEntry l k v).map Prod.fst).Nodup := by
  rw [insertEntry_keys]
  by_cases hmem : k ∈ l.map Prod.fst
  · rw [if_pos hmem]; exact h
  · rw [if_neg hmem]
    simpa using List.Nodup.append h (List.nodup_singleton k)
      (by simpa using hmem)

theorem add_types_keys_nodup {env : List StructDef} :
    ∀ {ns : List String} {acc : List (String × List (String × String))},
      ((acc.map Prod.fst).Nodup) → ((add_types env ns acc).map Prod.fst).Nodup := by
  intro ns
  induction ns with
  | nil => intro acc h; simpa [add_types] using h
  | cons n rest ih =>
    intro acc h
    cases hd2 : findDef env n with
    | none =>
      have hstep : add_types env (n :: rest) acc = add_types env rest acc := by
        simp only [add_types, List.foldl_cons, hd2]
      rw [hstep]
      exact ih h
    | some d2 =>
      have hstep : add_types env (n :: rest) acc =
          add_types env rest (insertEntry acc n (members_json d2)) := by
        simp only [add_types, List.foldl_cons, hd2]
      rw [hstep]
      exact ih (insertEntry_keys_nodup h n _)

theorem struct_to_dict_types_keys_nodup (keccak : List Nat → List Nat)
    (env : List StructDef) (p d : StructInst) :
    (((struct_to_dict keccak env p d).1.types).map Prod.fst).Nodup := by
  have htypes : (struct_to_dict keccak env p d).1.types =
      add_types env (gather_reference_structs env p.sdef)
        (insertEntry (insertEntry [] d.sdef.name (members_json d.sdef))
          p.sdef.name (members_json p.sdef)) := rfl
  rw [htypes]
  apply add_types_keys_nodup
  exact insertEntry_keys_nodup
    (insertEntry_keys_nodup (by simp) d.sdef.name _) p.sdef.name _

/-- The conditions on one member type under which its wire rendering and
resolution reconstruct it exactly: a struct reference must be a plain
identifier, not recognised by the scalar catalog, declared in the type
table; any other descriptor's rendered type name must be mapped back to the
same descriptor by the scalar catalog (this excludes arrays of structs,
whose element definitions the gathering walk misses, and nested arrays,
which the prefix regex truncates). -/
def memberTypeOK (tableNames : List String) : FieldType → Bool
  | .structRef s => tableNames.contains s &&
      decide (from_solidity_type s = none) &&
      decide (parseTypeRef s = some (s, none))
  | t => decide (from_solidity_type t.typeName = some t)

mutual
/-- Well-typedness of one stored value against its declared member type: a
struct-typed member holds `None` or a live instance of exactly the declared
definition (recursively well typed); a raw dict under a struct member, and
a dict or instance under a non-struct member, are excluded — those are the
shapes on which the instantiation of the reconstructed message diverges
from the original plain data. -/
def wellTypedMember (env : List StructDef) : FieldType → Value → Bool
  | .structRef s, .inst sd vs =>
    decide (findDef env s = some sd) && wellTypedVals env sd.members vs
  | .structRef _, .map _ => false
  | .structRef _, _ => true
  | _, .map _ => false
  | _, .inst _ _ => false
  | _, _ => true
termination_by t v => (sizeOf v, 1)
decreasing_by
  · apply Prod.Lex.left
    exact Nat.lt_of_lt_of_le (Nat.lt_succ_self _)
      (Nat.le_of_lt (sizeOf_vals_lt_inst sd vs))

/-- Well-typedness of an instance's `values` dictionary: exactly one entry
per declared member, in declaration order, each value well typed. -/
def wellTypedVals (env : List StructDef) :
    List (String × FieldType) → List (String × Value) → Bool
  | [], [] => true
  | (n, t) :: ms, (n', v) :: vs =>
    decide (n = n') && wellTypedMember env t v && wellTypedVals env ms vs
  | _, _ => false
termination_by ms vals => (sizeOf vals, 0)
decreasing_by
  · apply Prod.Lex.left
    simp only [List.cons.sizeOf_spec, Prod.mk.sizeOf_spec]
    omega
  · apply Prod.Lex.left
    simp only [List.cons.sizeOf_spec, Prod.mk.sizeOf_spec]
    omega
end

theorem insertEntry_append_of_not_mem {β : Type} :
    ∀ {l : List (String × β)} {k : String} {v : β},
      ¬ k ∈ l.map Prod.fst → insertEntry l k v = l ++ [(k, v)] := by
  intro l
  induction l with
  | nil => intro k v _; rfl
  | cons kv rest ih =>
    intro k v h
    rcases kv with ⟨k0, v0⟩
    rw [insertEntry, if_neg ?_, List.cons_append, ih ?_]
    · intro hk
      exact h (by simp [hk])
    · intro hk
      exact h (by simp [hk])

theorem mem_lookup_of_nodup {β : Type} :
    ∀ {l : List (String × β)}, ((l.map Prod.fst).Nodup) →
      ∀ {k : String} {e : β}, (k, e) ∈ l → List.lookup k l = some e := by
  intro l
  induction l with
  | nil => intro _ k e hm; cases hm
  | cons kv rest ih =>
    intro hnd k e hm
    rcases kv with ⟨k0, v0⟩
    simp only [List.map_cons, List.nodup_cons] at hnd
    rcases List.mem_cons.mp hm with heq | hm'
    · cases heq
      exact List.lookup_cons_self
    · have hk : k ≠ k0 := by
        intro h
        subst h
        exact hnd.1 (List.mem_map.mpr ⟨(k, e), hm', rfl⟩)
      rw [List.lookup_cons]
      have : (k == k0) = false := by
        simp only [beq_eq_false_iff_ne, ne_eq]
        exact hk
      rw [this]
      exact ih hnd.2 hm'

theorem resolveMember_reconstruct {T : List String} {n : String}
    {t : FieldType} (h : memberTypeOK T t = true) :
    resolveMember T (n, t.typeName) = .ok (n, t) := by
  cases t with
  | structRef s =>
    simp only [memberTypeOK, Bool.and_eq_true, decide_eq_true_eq] at h
    obtain ⟨⟨hc, hnone⟩, hparse⟩ := h
    show resolveMember T (n, s) = .ok (n, .structRef s)
    unfold resolveMember
    simp only [hnone]
    unfold resolveRef
    simp only [hparse, hc, if_true]
    rfl
  | scalar sn =>
    simp only [memberTypeOK, decide_eq_true_eq] at h
    unfold resolveMember
    simp only [h]
  | array e len =>
    simp only [memberTypeOK, decide_eq_true_eq] at h
    unfold resolveMember
    simp only [h]

theorem resolveMembers_cons_ok {T : List String} {nt : String × String}
    {rest : List (String × String)} {acc : List (String × FieldType)}
    {m : String × FieldType} (h : resolveMember T nt = .ok m) :
    resolveMembers T (nt :: rest) acc =
      resolveMembers T rest (insertEntry acc m.1 m.2) := by
  rw [resolveMembers]
  split
  · rename_i e hm
    rw [h] at hm
    cases hm
  · rename_i m' hm
    rw [h] at hm
    cases hm
    rfl

theorem resolveMembers_reconstruct {T : List String} :
    ∀ {ms acc : List (String × FieldType)},
      (∀ m ∈ ms, memberTypeOK T m.2 = true) →
      (∀ m ∈ ms, ¬ m.1 ∈ acc.map Prod.fst) →
      ((ms.map Prod.fst).Nodup) →
      resolveMembers T (ms.map (fun m => (m.1, m.2.typeName))) acc =
        .ok (acc ++ ms) := by
  intro ms
  induction ms with
  | nil =>
    intro acc _ _ _
    simp [resolveMembers]
  | cons m rest ih =>
    intro acc hok hfresh hnd
    rcases m with ⟨n, t⟩
    have hm : resolveMember T (n, t.typeName) = .ok (n, t) :=
      resolveMember_reconstruct (hok (n, t) (List.mem_cons_self _ _))
    show resolveMembers T
      ((n, t.typeName) :: rest.map (fun m => (m.1, m.2.typeName))) acc =
      .ok (acc ++ (n, t) :: rest)
    rw [resolveMembers_cons_ok hm]
    show resolveMembers T (rest.map (fun m => (m.1, m.2.typeName)))
      (insertEntry acc n t) = _
    rw [insertEntry_append_of_not_mem (hfresh (n, t) (List.mem_cons_self _ _))]
    simp only [List.map_cons, List.nodup_cons] at hnd
    rw [ih (fun m hm => hok m (List.mem_cons_of_mem _ hm)) ?_ hnd.2]
    · rw [List.append_assoc]
      rfl
    · intro m hm hmem
      rw [List.map_append, List.mem_append] at hmem
      rcases hmem with hmem | hmem
      · exact hfresh m (List.mem_cons_of_mem _ hm) hmem
      · simp only [List.map_cons, List.map_nil, List.mem_singleton] at hmem
        exact hnd.1 (hmem ▸ List.mem_map.mpr ⟨m, hm, rfl⟩)

theorem buildDefs_cons_ok {T : List String} {tn : String}
    {entries : List (String × String)}
    {rest : List (String × List (String × String))}
    {acc : List (String × StructDef)} {ms : List (String × FieldType)}
    (h : resolveMembers T entries [] = .ok ms) :
    buildDefs T ((tn, entries) :: rest) acc =
      buildDefs T rest (insertEntry acc tn ⟨tn, ms⟩) := by
  rw [buildDefs]
  split
  · rename_i e hm
    rw [h] at hm
    cases hm
  · rename_i ms' hm
    rw [h] at hm
    cases hm
    rfl

theorem buildDefs_reconstruct {T : List String} :
    ∀ {ds : List StructDef} {acc : List (String × StructDef)},
      (∀ d ∈ ds, ∀ m ∈ d.members, memberTypeOK T m.2 = true) →
      (∀ d ∈ ds, (d.members.map Prod.fst).Nodup) →
      (∀ d ∈ ds, ¬ d.name ∈ acc.map Prod.fst) →
      ((ds.map StructDef.name).Nodup) →
      buildDefs T (ds.map (fun d => (d.name, members_json d))) acc =
        .ok (acc ++ ds.map (fun d => (d.name, d))) := by
  intro ds
  induction ds with
  | nil =>
    intro acc _ _ _ _
    simp [buildDefs]
  | cons d rest ih =>
    intro acc hok hmnd hfresh hnd
    have hms : resolveMembers T (members_json d) [] = .ok d.members := by
      have := @resolveMembers_reconstruct T d.members []
        (hok d (List.mem_cons_self _ _)) (by simp)
        (hmnd d (List.mem_cons_self _ _))
      simpa [members_json] using this
    show buildDefs T ((d.name, members_json d) ::
      rest.map (fun d => (d.name, members_json d))) acc = _
    rw [buildDefs_cons_ok hms]
    show buildDefs T (rest.map (fun d => (d.name, members_json d)))
      (insertEntry acc d.name d) = _
    rw [insertEntry_append_of_not_mem (hfresh d (List.mem_cons_self _ _))]
    simp only [List.map_cons, List.nodup_cons] at hnd
    rw [ih (fun d2 h2 => hok d2 (List.mem_cons_of_mem _ h2))
      (fun d2 h2 => hmnd d2 (List.mem_cons_of_mem _ h2)) ?_ hnd.2]
    · rw [List.append_assoc]
      rfl
    · intro d2 h2 hmem
      rw [List.map_append, List.mem_append] at hmem
      rcases hmem with hmem | hmem
      · exact hfresh d2 (List.mem_cons_of_mem _ h2) hmem
      · simp only [List.map_cons, List.map_nil, List.mem_singleton] at hmem
        exact hnd.1 (hmem ▸ List.mem_map.mpr ⟨d2, h2, rfl⟩)

theorem init_value_map_struct {env : List StructDef} {s : String}
    {fields : List (String × Value)} :
    init_value env (.structRef s) (some (.map fields)) =
      mk_struct env s fields := by
  simp [init_value]

theorem mk_struct_eq {env : List StructDef} {s : String} {d : StructDef}
    (h : findDef env s = some d) (kwargs : List (String × Value)) :
    mk_struct env s kwargs =
      (init_members env d.members kwargs).map (fun vs => .inst d vs) := by
  rw [mk_struct]
  split
  · rename_i d2 h2
    rw [h] at h2
    cases h2
    rfl
  · rename_i h2
    rw [h] at h2
    cases h2

theorem wtm_map_eq_false (env : List StructDef) (t : FieldType)
    (f : List (String × Value)) :
    wellTypedMember env t (.map f) = false := by
  cases t <;> simp [wellTypedMember]

theorem wtm_inst_scalar (env : List StructDef) (sn : String) (sd : StructDef)
    (vs : List (String × Value)) :
    wellTypedMember env (.scalar sn) (.inst sd vs) = false := by
  simp [wellTypedMember]

theorem wtm_inst_array (env : List StructDef) (e : FieldType) (len : Nat)
    (sd : StructDef) (vs : List (String × Value)) :
    wellTypedMember env (.array e len) (.inst sd vs) = false := by
  simp [wellTypedMember]

theorem wtm_inst_struct (env : List StructDef) (s : String) (sd : StructDef)
    (vs : List (String × Value)) :
    wellTypedMember env (.structRef s) (.inst sd vs) =
      (decide (findDef env s = some sd) && wellTypedVals env sd.members vs) := by
  simp [wellTypedMember]

theorem wtv_cons (env : List StructDef) (n n' : String) (t : FieldType)
    (ms : List (String × FieldType)) (v : Value)
    (vs : List (String × Value)) :
    wellTypedVals env ((n, t) :: ms) ((n', v) :: vs) =
      (decide (n = n') && wellTypedMember env t v &&
        wellTypedVals env ms vs) := by
  simp [wellTypedVals]

theorem wtv_nil_cons (env : List StructDef) (x : String × Value)
    (vs : List (String × Value)) :
    wellTypedVals env [] (x :: vs) = false := by
  simp [wellTypedVals]

theorem wtv_cons_nil (env : List StructDef) (m : String × FieldType)
    (ms : List (String × FieldType)) :
    wellTypedVals env (m :: ms) [] = false := by
  rcases m with ⟨n, t⟩
  simp [wellTypedVals]

/-- The agreement between the original environment and the reconstructed
one, restricted to the names of the wire type table, plus the closure of
the table definitions' members under the reconstruction conditions. -/
def TableOK (env env2 : List StructDef) (T : List String) : Prop :=
  ∀ s ∈ T, findDef env2 s = findDef env s ∧
    ∀ d2, findDef env s = some d2 →
      (∀ m ∈ d2.members, memberTypeOK T m.2 = true) ∧
      (d2.members.map Prod.fst).Nodup

theorem init_round_trip {env env2 : List StructDef} {T : List String}
    (htab : TableOK env env2 T) :
    ∀ (N : Nat) (vals : List (String × Value))
      (ms : List (String × FieldType)) (kwargs : List (String × Value)),
      sizeOf vals ≤ N →
      (∀ m ∈ ms, memberTypeOK T m.2 = true) →
      ((ms.map Prod.fst).Nodup) →
      wellTypedVals env ms vals = true →
      (∀ n, n ∈ ms.map Prod.fst →
        List.lookup n kwargs = List.lookup n (data_dict_value_fields vals)) →
      ∃ vs', init_members env2 ms kwargs = .ok vs' ∧
        data_dict_value_fields vs' = data_dict_value_fields vals := by
  intro N
  induction N with
  | zero =>
    intro vals ms kwargs hsz
    exfalso
    have : 0 < sizeOf vals := by cases vals <;> simp <;> omega
    omega
  | succ N ih =>
    intro vals ms kwargs hsz hok hnd hwt hkw
    match ms, vals with
    | [], [] =>
      exact ⟨[], init_members_nil env2 kwargs, rfl⟩
    | [], x :: vs =>
      rw [wtv_nil_cons] at hwt
      cases hwt
    | m :: ms', [] =>
      rw [wtv_cons_nil] at hwt
      cases hwt
    | (n, t) :: ms', (n', v) :: vs =>
      rw [wtv_cons] at hwt
      simp only [Bool.and_eq_true, decide_eq_true_eq] at hwt
      obtain ⟨⟨hnn, hmem⟩, hrest⟩ := hwt
      subst hnn
      simp only [List.map_cons, List.nodup_cons] at hnd
      have hddf : data_dict_value_fields ((n, v) :: vs) =
          (n, data_dict_value v) :: data_dict_value_fields vs := rfl
      have hln : List.lookup n kwargs = some (data_dict_value v) := by
        rw [hkw n (by simp), hddf, List.lookup_cons_self]
      have hkw' : ∀ m, m ∈ ms'.map Prod.fst →
          List.lookup m kwargs = List.lookup m (data_dict_value_fields vs) := by
        intro m hm
        have hmn : m ≠ n := fun h => hnd.1 (h ▸ hm)
        rw [hkw m (by simp [hm]), hddf, List.lookup_cons]
        have : (m == n) = false := by
          simp only [beq_eq_false_iff_ne, ne_eq]
          exact hmn
        rw [this]
      have hsz_tail : sizeOf vs ≤ N := by
        have : sizeOf ((n, v) :: vs) = 1 + sizeOf (n, v) + sizeOf vs := by simp
        have h2 : 1 ≤ sizeOf (n, v) := by simp; omega
        omega
      obtain ⟨vs'', htail, htail_ddf⟩ := ih vs ms' kwargs hsz_tail
        (fun m hm => hok m (List.mem_cons_of_mem _ hm)) hnd.2 hrest hkw'
      -- now produce the head value
      cases v with
      | map f =>
        rw [wtm_map_eq_false] at hmem
        cases hmem
      | inst sd vs2 =>
        cases t with
        | scalar sn => rw [wtm_inst_scalar] at hmem; cases hmem
        | array e len => rw [wtm_inst_array] at hmem; cases hmem
        | structRef s =>
          rw [wtm_inst_struct] at hmem
          simp only [Bool.and_eq_true, decide_eq_true_eq] at hmem
          obtain ⟨hfind, hwt2⟩ := hmem
          have hsT : s ∈ T := by
            have := hok (n, .structRef s) (List.mem_cons_self _ _)
            simp only [memberTypeOK, Bool.and_eq_true, decide_eq_true_eq] at this
            exact (by simpa [List.contains, List.elem_eq_mem] using this.1.1)
          obtain ⟨hagree, hclosure⟩ := htab s hsT
          obtain ⟨hok2, hnd2⟩ := hclosure sd hfind
          have hsz2 : sizeOf vs2 ≤ N := by
            have h1 : sizeOf ((n, Value.inst sd vs2) :: vs) =
                1 + sizeOf (n, Value.inst sd vs2) + sizeOf vs := by simp
            have h2 : sizeOf (n, Value.inst sd vs2) =
                1 + sizeOf n + sizeOf (Value.inst sd vs2) := by simp
            have h3 : sizeOf vs2 + 1 < sizeOf (Value.inst sd vs2) :=
              sizeOf_vals_lt_inst sd vs2
            have h4 : 1 ≤ sizeOf n := by
              cases n
              simp
            omega
          obtain ⟨vs2', hnest, hnest_ddf⟩ := ih vs2 sd.members
            (data_dict_value_fields vs2) hsz2 hok2 hnd2 hwt2
            (fun m _ => rfl)
          have hv' : init_value env2 (.structRef s)
              (List.lookup n kwargs) = .ok (.inst sd vs2') := by
            rw [hln]
            have hconv : data_dict_value (Value.inst sd vs2) =
                .map (data_dict_value_fields vs2) := rfl
            rw [hconv, init_value_map_struct,
              mk_struct_eq (hagree.trans hfind ▸ hagree ▸ rfl : findDef env2 s = some sd), hnest]
            rfl
          refine ⟨(n, .inst sd vs2') :: vs'',
            init_members_cons_ok hv' htail, ?_⟩
          have hconv1 : data_dict_value_fields ((n, Value.inst sd vs2') :: vs'') =
              (n, .map (data_dict_value_fields vs2')) ::
                data_dict_value_fields vs'' := rfl
          rw [hconv1, hddf, htail_ddf, hnest_ddf]
          rfl
      | vnone =>
        have hv' : init_value env2 t (List.lookup n kwargs) = .ok Value.vnone := by
          rw [hln]
          exact init_value_some_not_map (by intro f h; cases h)
        exact ⟨(n, .vnone) :: vs'',
          init_members_cons_ok hv' htail, by
            rw [hddf]
            show (n, Value.vnone) :: data_dict_value_fields vs'' = _
            rw [htail_ddf]
            rfl⟩
      | atom a =>
        have hv' : init_value env2 t (List.lookup n kwargs) = .ok (Value.atom a) := by
          rw [hln]
          exact init_value_some_not_map (by intro f h; cases h)
        exact ⟨(n, .atom a) :: vs'',
          init_members_cons_ok hv' htail, by
            rw [hddf]
            show (n, Value.atom a) :: data_dict_value_fields vs'' = _
            rw [htail_ddf]
            rfl⟩
      | list es =>
        have hv' : init_value env2 t (List.lookup n kwargs) = .ok (Value.list es) := by
          rw [hln]
          exact init_value_some_not_map (by intro f h; cases h)
        exact ⟨(n, .list es) :: vs'',
          init_members_cons_ok hv' htail, by
            rw [hddf]
            show (n, Value.list es) :: data_dict_value_fields vs'' = _
            rw [htail_ddf]
            rfl⟩

theorem gatherStack_congr (env env2 : List StructDef) (S : List String)
    (hSA : ∀ n ∈ S, findDef env2 n = findDef env n)
    (hSC : ∀ n ∈ S, ∀ d2, findDef env n = some d2 →
      ∀ m ∈ directRefNames d2, m ∈ S) :
    ∀ pend vis, (∀ n ∈ pend, n ∈ S) →
      gatherStack env2 pend vis = gatherStack env pend vis := by
  intro pend vis
  induction pend, vis using gatherStack.induct env with
  | case1 vis =>
    intro _
    rw [gatherStack_nil, gatherStack_nil]
  | case2 n rest vis h ih =>
    intro hp
    rw [gatherStack_cons_mem h, gatherStack_cons_mem h]
    exact ih (fun m hm => hp m (List.mem_cons_of_mem _ hm))
  | case3 n rest vis h d2 hfind ih =>
    intro hp
    have hnS := hp n (List.mem_cons_self _ _)
    have h2 : findDef env2 n = some d2 := (hSA n hnS).trans hfind
    rw [gatherStack_cons_some h h2, gatherStack_cons_some h hfind]
    apply ih
    intro m hm
    rcases List.mem_append.mp hm with hm | hm
    · exact hSC n hnS d2 hfind m hm
    · exact hp m (List.mem_cons_of_mem _ hm)
  | case4 n rest vis h hfind ih =>
    intro hp
    have hnS := hp n (List.mem_cons_self _ _)
    have h2 : findDef env2 n = none := (hSA n hnS).trans hfind
    rw [gatherStack_cons_none h h2, gatherStack_cons_none h hfind]
    exact ih (fun m hm => hp m (List.mem_cons_of_mem _ hm))

theorem reach_mem_of_closed {env : List StructDef} {S start : List String}
    (hstart : ∀ n ∈ start, n ∈ S)
    (hstep : ∀ n ∈ S, ∀ d2, findDef env n = some d2 →
      ∀ m ∈ directRefNames d2, m ∈ S) :
    ∀ w, ReachableRef env start w → w ∈ S := by
  intro w h
  induction h with
  | base hb => exact hstart _ hb
  | step _ hfind hm ih => exact hstep _ ih _ hfind _ hm

theorem directRefNames_mem {d2 : StructDef} {m : String} :
    m ∈ directRefNames d2 ↔ ∃ mb ∈ d2.members, mb.2 = .structRef m := by
  unfold directRefNames
  rw [List.mem_filterMap]
  constructor
  · rintro ⟨mb, hmb, hf⟩
    refine ⟨mb, hmb, ?_⟩
    cases ht : mb.2 <;> rw [ht] at hf
    · cases hf
    · rename_i s
      cases hf
      rfl
    · cases hf
  · rintro ⟨mb, hmb, hf⟩
    exact ⟨mb, hmb, by rw [hf]⟩

theorem directRefNames_subset_of_memberOK {T : List String} {d2 : StructDef}
    (h : ∀ m ∈ d2.members, memberTypeOK T m.2 = true) :
    ∀ m ∈ directRefNames d2, m ∈ T := by
  intro m hm
  rcases directRefNames_mem.mp hm with ⟨mb, hmb, hf⟩
  have := h mb hmb
  rw [hf] at this
  simp only [memberTypeOK, Bool.and_eq_true, decide_eq_true_eq] at this
  simpa [List.contains, List.elem_eq_mem] using this.1.1

theorem map_congr_mem {α β : Type} {f g : α → β} :
    ∀ {l : List α}, (∀ a ∈ l, f a = g a) → l.map f = l.map g := by
  intro l
  induction l with
  | nil => intro _; rfl
  | cons a rest ih =>
    intro h
    simp only [List.map_cons]
    rw [h a (List.mem_cons_self _ _), ih (fun b hb => h b (List.mem_cons_of_mem _ hb))]

theorem encode_type_congr {env env2 : List StructDef} {X : StructDef}
    (hg : gather_reference_structs env2 X = gather_reference_structs env X)
    (ha : ∀ n ∈ gather_reference_structs env X, findDef env2 n = findDef env n) :
    encode_type env2 X = encode_type env X := by
  unfold encode_type
  rw [hg]
  congr 1
  congr 1
  apply map_congr_mem
  intro n hn
  have hmem : n ∈ gather_reference_structs env X := by
    have h1 := (List.mergeSort_perm
      ((gather_reference_structs env X).filter (fun n => n != X.name))
      (fun a b => decide (a ≤ b))).mem_iff.mp hn
    exact (List.mem_filter.mp h1).1
  rw [ha n hmem]

theorem lookup_mem {β : Type} :
    ∀ {l : List (String × β)} {k : String} {v : β},
      List.lookup k l = some v → (k, v) ∈ l := by
  intro l
  induction l with
  | nil => intro k v h; cases h
  | cons kv rest ih =>
    intro k v h
    rcases kv with ⟨k0, v0⟩
    rw [List.lookup_cons] at h
    cases hk : (k == k0) with
    | true =>
      rw [hk] at h
      cases h
      have : k = k0 := by simpa using hk
      subst this
      exact List.mem_cons_self _ _
    | false =>
      rw [hk] at h
      exact List.mem_cons_of_mem _ (ih h)

theorem findDef_of_names_nodup :
    ∀ {ds : List StructDef}, ((ds.map StructDef.name).Nodup) →
      ∀ {d0 : StructDef}, d0 ∈ ds → findDef ds d0.name = some d0 := by
  intro ds
  induction ds with
  | nil => intro _ d0 h; cases h
  | cons d rest ih =>
    intro hnd d0 h
    simp only [List.map_cons, List.nodup_cons] at hnd
    rcases List.mem_cons.mp h with rfl | h'
    · unfold findDef
      rw [List.find?_cons_of_pos]
      simp
    · have hne : d.name ≠ d0.name := by
        intro he
        exact hnd.1 (he ▸ List.mem_map.mpr ⟨d0, h', rfl⟩)
      unfold findDef
      rw [List.find?_cons_of_neg]
      · exact ih hnd.2 h'
      · simpa using fun he => hne he

theorem exists_defs_of_table {env : List StructDef} :
    ∀ {l : List (String × List (String × String))},
      (∀ kv ∈ l, ∃ d2, findDef env kv.1 = some d2 ∧ kv.2 = members_json d2) →
      ∃ ds : List StructDef,
        l = ds.map (fun d => (d.name, members_json d)) ∧
        (∀ d2 ∈ ds, findDef env d2.name = some d2) ∧
        ds.map StructDef.name = l.map Prod.fst := by
  intro l
  induction l with
  | nil => intro _; exact ⟨[], rfl, fun d2 h => absurd h (List.not_mem_nil d2), rfl⟩
  | cons kv rest ih =>
    intro h
    obtain ⟨d2, hfind, he⟩ := h kv (List.mem_cons_self _ _)
    obtain ⟨ds, hshape, hdsfind, hnames⟩ :=
      ih (fun kv2 h2 => h kv2 (List.mem_cons_of_mem _ h2))
    refine ⟨d2 :: ds, ?_, ?_, ?_⟩
    · rcases kv with ⟨k, e⟩
      have hname : d2.name = k := findDef_name hfind
      simp only [List.map_cons, hname, ← he, ← hshape]
    · intro d3 h3
      rcases List.mem_cons.mp h3 with rfl | h3
      · rw [findDef_name hfind]
        exact hfind
      · exact hdsfind d3 h3
    · simp only [List.map_cons, hnames, findDef_name hfind]

theorem wtv_nil_nil (env : List StructDef) :
    wellTypedVals env [] [] = true := by
  simp [wellTypedVals]

theorem wtm_scalar_atom (env : List StructDef) (sn a : String) :
    wellTypedMember env (.scalar sn) (.atom a) = true := by
  simp [wellTypedMember]

theorem map_snd_pair (ds : List StructDef) :
    (ds.map (fun d2 => (d2.name, d2))).map Prod.snd = ds := by
  induction ds with
  | nil => rfl
  | cons a t ih => simp [ih]

/-- claim C4 (amended): the wire round trip reconstructs the primary and
domain instances — with their plain-data dictionaries and the recomputed
signing hash (over the rebuilt definitions) equal to the originals' —
under the conditions the source requires: the domain definition is named
`EIP712Domain`; every definition in the produced type table resolves in the
environment, its member names are distinct, and each member type
reconstructs exactly (struct references are plain identifiers declared in
the table and not scalar names, every other type round-trips through the
scalar catalog — excluding arrays of structs and nested arrays); and the
stored values are well typed (struct members hold `None` or a live instance
of the declared definition, no raw dicts, no instances under non-struct
members). -/
theorem claim_C4_round_trip (keccak : List Nat → List Nat)
    (env : List StructDef) (p d : StructInst)
    (hdn : d.sdef.name = "EIP712Domain")
    (hd : findDef env d.sdef.name = some d.sdef)
    (hp : findDef env p.sdef.name = some p.sdef)
    (hres : ∀ n ∈ gather_reference_structs env p.sdef, (findDef env n).isSome)
    (hclose : ∀ s ∈ ((struct_to_dict keccak env p d).1.types).map Prod.fst,
      ∀ d2, findDef env s = some d2 →
        (∀ m ∈ d2.members,
          memberTypeOK (((struct_to_dict keccak env p d).1.types).map Prod.fst)
            m.2 = true) ∧
        (d2.members.map Prod.fst).Nodup)
    (hwtp : wellTypedVals env p.sdef.members p.vals = true)
    (hwtd : wellTypedVals env d.sdef.members d.vals = true) :
    ∃ p' d' : StructInst, ∃ env2 : List StructDef,
      struct_from_dict (struct_to_dict keccak env p d).1 = .ok (p', d') ∧
      (∃ table,
        buildDefs (((struct_to_dict keccak env p d).1.types).map Prod.fst)
          ((struct_to_dict keccak env p d).1.types) [] = .ok table ∧
        env2 = table.map Prod.snd) ∧
      p'.sdef = p.sdef ∧ d'.sdef = d.sdef ∧
      data_dict_value_fields p'.vals = data_dict_value_fields p.vals ∧
      data_dict_value_fields d'.vals = data_dict_value_fields d.vals ∧
      (struct_to_dict keccak env2 p' d').2 = (struct_to_dict keccak env p d).2 := by
  have hty : (struct_to_dict keccak env p d).1.types =
      add_types env (gather_reference_structs env p.sdef)
        (insertEntry (insertEntry [] d.sdef.name (members_json d.sdef))
          p.sdef.name (members_json p.sdef)) := rfl
  have hndT : (((struct_to_dict keccak env p d).1.types).map Prod.fst).Nodup :=
    struct_to_dict_types_keys_nodup keccak env p d
  have hbase_content : ∀ k e,
      List.lookup k (insertEntry (insertEntry [] d.sdef.name
        (members_json d.sdef)) p.sdef.name (members_json p.sdef)) = some e →
      ∃ d2, findDef env k = some d2 ∧ e = members_json d2 := by
    intro k e h
    by_cases hk : k = p.sdef.name
    · subst hk
      rw [lookup_insertEntry_self] at h
      cases h
      exact ⟨p.sdef, hp, rfl⟩
    · rw [lookup_insertEntry_other hk] at h
      by_cases hk2 : k = d.sdef.name
      · subst hk2
        rw [lookup_insertEntry_self] at h
        cases h
        exact ⟨d.sdef, hd, rfl⟩
      · rw [lookup_insertEntry_other hk2] at h
        simp [List.lookup] at h
  have hcontent : ∀ k e,
      List.lookup k ((struct_to_dict keccak env p d).1.types) = some e →
      ∃ d2, findDef env k = some d2 ∧ e = members_json d2 := by
    intro k e h
    rw [hty] at h
    exact add_types_content hbase_content k e h
  have hentry : ∀ kv ∈ (struct_to_dict keccak env p d).1.types,
      ∃ d2, findDef env kv.1 = some d2 ∧ kv.2 = members_json d2 := by
    intro kv hkv
    rcases kv with ⟨k, e⟩
    exact hcontent k e (mem_lookup_of_nodup hndT hkv)
  obtain ⟨ds, hshape, hdsfind, hnames⟩ := exists_defs_of_table hentry
  have hdsnodup : (ds.map StructDef.name).Nodup := by
    rw [hnames]
    exact hndT
  have hmemT_iff : ∀ k,
      k ∈ ((struct_to_dict keccak env p d).1.types).map Prod.fst ↔
        (k = d.sdef.name ∨ k = p.sdef.name ∨
          k ∈ gather_reference_structs env p.sdef) := by
    intro k
    rw [← lookup_isSome_iff_mem, hty, add_types_lookup_isSome hres,
      lookup_insertEntry_isSome, lookup_insertEntry_isSome]
    simp only [List.lookup]
    simp only [Option.isSome_none, Bool.false_eq_true, or_false]
    tauto
  have hdsboth : ∀ d2 ∈ ds,
      (∀ m ∈ d2.members,
        memberTypeOK (((struct_to_dict keccak env p d).1.types).map Prod.fst)
          m.2 = true) ∧
      (d2.members.map Prod.fst).Nodup := by
    intro d2 h2
    refine hclose d2.name ?_ d2 (hdsfind d2 h2)
    rw [← hnames]
    exact List.mem_map.mpr ⟨d2, h2, rfl⟩
  have hbuild : buildDefs (((struct_to_dict keccak env p d).1.types).map Prod.fst)
      ((struct_to_dict keccak env p d).1.types) [] =
      .ok (ds.map (fun d2 => (d2.name, d2))) := by
    nth_rewrite 2 [hshape]
    have := @buildDefs_reconstruct
      (((struct_to_dict keccak env p d).1.types).map Prod.fst) ds []
      (fun d2 h2 => (hdsboth d2 h2).1) (fun d2 h2 => (hdsboth d2 h2).2)
      (by simp) hdsnodup
    simpa using this
  have htkeys : ((ds.map (fun d2 => (d2.name, d2))).map Prod.fst).Nodup := by
    have h1 : (ds.map (fun d2 => (d2.name, d2))).map Prod.fst =
        ds.map StructDef.name := by
      simp
    rw [h1]
    exact hdsnodup
  have henv2 : (ds.map (fun d2 => (d2.name, d2))).map Prod.snd = ds :=
    map_snd_pair ds
  have hlookup_name : ∀ k, k ∈ ds.map StructDef.name →
      ∃ d0, d0 ∈ ds ∧ d0.name = k ∧
        List.lookup k (ds.map (fun d2 => (d2.name, d2))) = some d0 ∧
        findDef env k = some d0 := by
    intro k hk
    rcases List.mem_map.mp hk with ⟨d0, hd0, hde⟩
    refine ⟨d0, hd0, hde, ?_, ?_⟩
    · rw [← hde]
      exact mem_lookup_of_nodup htkeys (List.mem_map.mpr ⟨d0, hd0, rfl⟩)
    · rw [← hde]
      exact hdsfind d0 hd0
  have hlookP : List.lookup p.sdef.name (ds.map (fun d2 => (d2.name, d2))) =
      some p.sdef := by
    obtain ⟨d0, _, _, hl, hf⟩ := hlookup_name p.sdef.name
      (by rw [hnames]; exact (hmemT_iff _).mpr (Or.inr (Or.inl rfl)))
    rw [hp] at hf
    have h0 : d0 = p.sdef := (Option.some.inj hf).symm
    rw [hl, h0]
  have hlookD : List.lookup "EIP712Domain" (ds.map (fun d2 => (d2.name, d2))) =
      some d.sdef := by
    rw [← hdn]
    obtain ⟨d0, _, _, hl, hf⟩ := hlookup_name d.sdef.name
      (by rw [hnames]; exact (hmemT_iff _).mpr (Or.inl rfl))
    rw [hd] at hf
    have h0 : d0 = d.sdef := (Option.some.inj hf).symm
    rw [hl, h0]
  have htab : TableOK env ds
      (((struct_to_dict keccak env p d).1.types).map Prod.fst) := by
    intro s hs
    refine ⟨?_, fun d2 hfind2 => hclose s hs d2 hfind2⟩
    obtain ⟨d0, hd0, hde, _, hf⟩ := hlookup_name s (by rw [hnames]; exact hs)
    rw [hf, ← hde]
    exact findDef_of_names_nodup hdsnodup hd0
  have hPmemT : p.sdef.name ∈
      ((struct_to_dict keccak env p d).1.types).map Prod.fst :=
    (hmemT_iff _).mpr (Or.inr (Or.inl rfl))
  have hDmemT : d.sdef.name ∈
      ((struct_to_dict keccak env p d).1.types).map Prod.fst :=
    (hmemT_iff _).mpr (Or.inl rfl)
  have hPok := hclose p.sdef.name hPmemT p.sdef hp
  have hDok := hclose d.sdef.name hDmemT d.sdef hd
  obtain ⟨pvs, hinitP, hddfP⟩ := init_round_trip htab (sizeOf p.vals) p.vals
    p.sdef.members (data_dict_value_fields p.vals) le_rfl hPok.1 hPok.2 hwtp
    (fun n _ => rfl)
  obtain ⟨dvs, hinitD, hddfD⟩ := init_round_trip htab (sizeOf d.vals) d.vals
    d.sdef.members (data_dict_value_fields d.vals) le_rfl hDok.1 hDok.2 hwtd
    (fun n _ => rfl)
  have hinstP : instantiate ds p.sdef (data_dict_value_fields p.vals) =
      .ok ⟨p.sdef, pvs⟩ := by
    unfold instantiate
    rw [hinitP]
    rfl
  have hinstD : instantiate ds d.sdef (data_dict_value_fields d.vals) =
      .ok ⟨d.sdef, dvs⟩ := by
    unfold instantiate
    rw [hinitD]
    rfl
  have hSA : ∀ n ∈ ((struct_to_dict keccak env p d).1.types).map Prod.fst,
      findDef ds n = findDef env n := fun n hn => (htab n hn).1
  have hSC : ∀ n ∈ ((struct_to_dict keccak env p d).1.types).map Prod.fst,
      ∀ d2, findDef env n = some d2 → ∀ m ∈ directRefNames d2,
        m ∈ ((struct_to_dict keccak env p d).1.types).map Prod.fst :=
    fun n hn d2 hf => directRefNames_subset_of_memberOK (hclose n hn d2 hf).1
  have hstartP : ∀ n ∈ directRefNames p.sdef,
      n ∈ ((struct_to_dict keccak env p d).1.types).map Prod.fst :=
    hSC p.sdef.name hPmemT p.sdef hp
  have hstartD : ∀ n ∈ directRefNames d.sdef,
      n ∈ ((struct_to_dict keccak env p d).1.types).map Prod.fst :=
    hSC d.sdef.name hDmemT d.sdef hd
  have hgP : gather_reference_structs ds p.sdef =
      gather_reference_structs env p.sdef :=
    gatherStack_congr env ds
      (((struct_to_dict keccak env p d).1.types).map Prod.fst) hSA hSC
      (directRefNames p.sdef) [] hstartP
  have hgD : gather_reference_structs ds d.sdef =
      gather_reference_structs env d.sdef :=
    gatherStack_congr env ds
      (((struct_to_dict keccak env p d).1.types).map Prod.fst) hSA hSC
      (directRefNames d.sdef) [] hstartD
  have hetP : encode_type ds p.sdef = encode_type env p.sdef :=
    encode_type_congr hgP (fun n hn => hSA n (reach_mem_of_closed hstartP hSC n
      ((gather_reference_structs_mem_iff env p.sdef n).mp hn)))
  have hetD : encode_type ds d.sdef = encode_type env d.sdef :=
    encode_type_congr hgD (fun n hn => hSA n (reach_mem_of_closed hstartD hSC n
      ((gather_reference_structs_mem_iff env d.sdef n).mp hn)))
  refine ⟨⟨p.sdef, pvs⟩, ⟨d.sdef, dvs⟩, ds, ?_,
    ⟨ds.map (fun d2 => (d2.name, d2)), hbuild, henv2.symm⟩,
    rfl, rfl, hddfP, hddfD, ?_⟩
  · have hptr : (struct_to_dict keccak env p d).1.primaryType =
        p.sdef.name := rfl
    have hmsgr : (struct_to_dict keccak env p d).1.message =
        data_dict_value_fields p.vals := rfl
    have hdomr : (struct_to_dict keccak env p d).1.domain =
        data_dict_value_fields d.vals := rfl
    unfold struct_from_dict
    simp only [hbuild, hptr, hmsgr, hdomr, hlookP, hlookD, henv2,
      hinstP, hinstD]
  · show keccak ([0x19, 0x01] ++ type_hash keccak ds d.sdef ++
        type_hash keccak ds p.sdef) =
      keccak ([0x19, 0x01] ++ type_hash keccak env d.sdef ++
        type_hash keccak env p.sdef)
    unfold type_hash
    rw [hetP, hetD]

/-- The domain definition of the round-trip counterexample: a legal EIP-712
domain struct whose class is not named `EIP712Domain`. -/
def domDefC4 : StructDef := ⟨"MyDomain", [("dn", .scalar "string")]⟩

def envC4 : List StructDef := [domDefC4, primDefC6]

def primInstC4 : StructInst := ⟨primDefC6, [("y", .atom "1")]⟩

def domInstC4 : StructInst := ⟨domDefC4, [("dn", .atom "d")]⟩

/-- claim C4, counterexample: serialisation keys the domain entry by its
class name, but deserialisation looks up the literal key `EIP712Domain`
(line 216), so the round trip fails outright for any domain definition
not named `EIP712Domain` — `from_wire(to_wire(primary, domain)[0])` raises
`KeyError` instead of reconstructing the instances. -/
theorem claim_C4_counterexample :
    domInstC4.sdef.name ≠ "EIP712Domain" ∧
    struct_from_dict (struct_to_dict kec0 envC4 primInstC4 domInstC4).1 =
      .error (.keyError "EIP712Domain") := by
  constructor
  · decide
  · have hg : gather_reference_structs envC4 primDefC6 = [] := by
      show gatherStack envC4 (directRefNames primDefC6) [] = []
      rw [show directRefNames primDefC6 = [] from rfl, gatherStack_nil]
    have h1 : (struct_to_dict kec0 envC4 primInstC4 domInstC4).1 =
        ⟨"Prim", add_types envC4 (gather_reference_structs envC4 primDefC6)
          [("MyDomain", [("dn", "string")]), ("Prim", [("y", "uint256")])],
          [("dn", Value.atom "d")], [("y", Value.atom "1")]⟩ := rfl
    rw [h1, hg]
    rfl

/-- The domain instance of the round-trip witness scenario: the domain
definition carries the standard name `EIP712Domain`. -/
def domInstW : StructInst := ⟨domainDefW, [("name", .atom "Ether Mail")]⟩

/-- claim C4, witness: the amended round-trip statement applied to the
Mail/Person scenario over the wire environment, with nested `Person`
instances inside the primary `Mail` instance; every hypothesis is
discharged by computation on the concrete input. -/
theorem claim_C4_witness :
    domInstW.sdef.name = "EIP712Domain" ∧
    (∃ p' d' : StructInst, ∃ env2 : List StructDef,
      struct_from_dict (struct_to_dict kec0 envWire mailInst domInstW).1 =
        .ok (p', d') ∧
      (∃ table,
        buildDefs
          (((struct_to_dict kec0 envWire mailInst domInstW).1.types).map
            Prod.fst)
          ((struct_to_dict kec0 envWire mailInst domInstW).1.types) [] =
          .ok table ∧
        env2 = table.map Prod.snd) ∧
      p'.sdef = mailInst.sdef ∧ d'.sdef = domInstW.sdef ∧
      data_dict_value_fields p'.vals = data_dict_value_fields mailInst.vals ∧
      data_dict_value_fields d'.vals = data_dict_value_fields domInstW.vals ∧
      (struct_to_dict kec0 env2 p' d').2 =
        (struct_to_dict kec0 envWire mailInst domInstW).2) := by
  have hT : ((struct_to_dict kec0 envWire mailInst domInstW).1.types).map
      Prod.fst = ["EIP712Domain", "Mail", "Person"] := by
    have h1 : (struct_to_dict kec0 envWire mailInst domInstW).1.types =
        add_types envWire (gather_reference_structs envWire mailInst.sdef)
          [("EIP712Domain", [("name", "string")]),
           ("Mail", [("from", "Person"), ("to", "Person"),
             ("contents", "string")])] := rfl
    rw [h1, show gather_reference_structs envWire mailInst.sdef = ["Person"]
      from gather_mail_wire]
    rfl
  refine ⟨rfl, claim_C4_round_trip kec0 envWire mailInst domInstW rfl rfl rfl
    ?_ ?_ ?_ ?_⟩
  · intro n hn
    rw [show gather_reference_structs envWire mailInst.sdef = ["Person"]
      from gather_mail_wire] at hn
    simp only [List.mem_cons, List.not_mem_nil, or_false] at hn
    subst hn
    rfl
  · intro s hs d2 hfind
    rw [hT] at hs ⊢
    simp only [List.mem_cons, List.not_mem_nil, or_false] at hs
    rcases hs with rfl | rfl | rfl
    · have h2 : findDef envWire "EIP712Domain" = some domainDefW := rfl
      rw [h2] at hfind
      have h3 : domainDefW = d2 := Option.some.inj hfind
      subst h3
      exact ⟨by decide, by decide⟩
    · have h2 : findDef envWire "Mail" = some mailDef := rfl
      rw [h2] at hfind
      have h3 : mailDef = d2 := Option.some.inj hfind
      subst h3
      exact ⟨by decide, by decide⟩
    · have h2 : findDef envWire "Person" = some personDef := rfl
      rw [h2] at hfind
      have h3 : personDef = d2 := Option.some.inj hfind
      subst h3
      exact ⟨by decide, by decide⟩
  · show wellTypedVals envWire mailDef.members mailInst.vals = true
    simp only [mailInst, mailDef, personInstVal, personDef, wtv_cons,
      wtm_inst_struct, wtm_scalar_atom, wtv_nil_nil]
    decide
  · show wellTypedVals envWire domainDefW.members domInstW.vals = true
    simp only [domInstW, domainDefW, wtv_cons, wtm_scalar_atom, wtv_nil_nil]
    decide

end EIP712
